import Mathlib

/-!
# Verification of the markdownfmt renderer (Kunde21/markdownfmt)

A shallow embedding of the Markdown-to-Markdown formatter's core renderer
(package `markdown`, the current goldmark-based implementation) together
with the CLI driver, and proofs of the specified properties.

Bytes are modelled as natural numbers (`Nat`); Go byte slices become
`List Nat`.  Relevant byte values: 9 = tab, 10 = newline, 13 = carriage
return, 32 = space, 62 = the quote mark, 96 = backtick.
-/

namespace Markdownfmt

/-! ## Whitespace cleaning (`cleanWithoutTrim`, renderer.go) -/

/-- Loop of `cleanWithoutTrim` from `markdown/renderer.go`: `p` is the
previously appended byte (Go zero value `0` initially).  Each of `\n`,
`\r`, `\t` is replaced by a space and a space is dropped when the
previously appended byte is already a space. -/
def cleanWithoutTrimGo (p : Nat) : List Nat → List Nat
  | [] => []
  | b :: rest =>
    let q := if b = 10 ∨ b = 13 ∨ b = 9 then 32 else b
    if q ≠ 32 ∨ p ≠ 32 then q :: cleanWithoutTrimGo q rest
    else cleanWithoutTrimGo p rest

/-- `cleanWithoutTrim` from `markdown/renderer.go` (initial `p` is the Go
zero value `0`). -/
def cleanWithoutTrim (b : List Nat) : List Nat := cleanWithoutTrimGo 0 b

/-- The byte-replacement half of the cleaning as the spec words it:
`\n`, `\r`, `\t` become a space. -/
def replaceWS (b : Nat) : Nat := if b = 10 ∨ b = 13 ∨ b = 9 then 32 else b

/-- The collapse half of the cleaning as the spec words it: consecutive
spaces become one. -/
def collapseSpaces : List Nat → List Nat
  | [] => []
  | [a] => [a]
  | a :: b :: rest =>
    if a = 32 ∧ b = 32 then collapseSpaces (b :: rest)
    else a :: collapseSpaces (b :: rest)

/-- Cleaning as the specification words it: replace each of `\n`, `\r`,
`\t` with a space, then collapse consecutive spaces into one. -/
def cleanSpec (s : List Nat) : List Nat := collapseSpaces (s.map replaceWS)

/-- The collapse loop with explicit previous-byte state, on an
already-replaced byte list.  `cleanWithoutTrimGo` factors through it. -/
def collapseGo (p : Nat) : List Nat → List Nat
  | [] => []
  | q :: rest =>
    if q ≠ 32 ∨ p ≠ 32 then q :: collapseGo q rest
    else collapseGo p rest
/-- No two adjacent spaces. -/
def noDS : List Nat → Prop
  | [] => True
  | a :: rest => ¬(a = 32 ∧ rest.head? = some 32) ∧ noDS rest
/-- `isNumber` from `markdown/renderer.go`: every byte is an ASCII digit
(vacuously true for the empty slice, as in Go). -/
def isNumber : List Nat → Bool
  | [] => true
  | b :: rest => if b < 48 ∨ b > 57 then false else isNumber rest

/-- `needsEscaping` from `markdown/renderer.go`.  The Go switch compares
the whole `text` byte slice against one-character string literals:
`\` 92, backtick 96, `*` 42, `_` 95, `{` 123, `}` 125, `[` 91, `]` 93,
`(` 40, `)` 41, `#` 35, `+` 43, `-` 45, `!` 33, `.` 46, `<` 60, `>` 62. -/
def needsEscaping (text lastNormalText : List Nat) : Bool :=
  if text = [92] ∨ text = [96] ∨ text = [42] ∨ text = [95] ∨
      text = [123] ∨ text = [125] ∨ text = [91] ∨ text = [93] ∨
      text = [40] ∨ text = [41] ∨ text = [35] ∨ text = [43] ∨
      text = [45] then true
  else if text = [33] then false
  else if text = [46] then isNumber lastNormalText
  else if text = [60] ∨ text = [62] then true
  else false

/-- ASCII decimal digits, structurally recursive on a fuel bound so that
the kernel can evaluate it (`fuel ≥ n` always holds for the uses below,
since a number needs at most `n` divisions by ten). -/
def natDigitsGo : Nat → Nat → List Nat
  | n, 0 => [48 + n % 10]
  | n, fuel + 1 =>
    if n < 10 then [48 + n]
    else natDigitsGo (n / 10) fuel ++ [48 + n % 10]

/-- ASCII decimal digits of a natural number, as `fmt.Sprintf` with the
verb for decimal integers produces them. -/
def natDigits (n : Nat) : List Nat := natDigitsGo n n

/-- Core of `listItemMarkerChars` from `markdown/renderer.go`, given the
parent list's `IsOrdered`, `Start` and `Marker` fields and the number `k`
of previous siblings of the item (counted by the Go loop):
`cnt` starts at 1, is replaced by `Start` when that is non-zero, and is
incremented once per previous sibling. -/
def listItemMarkerOf (ordered : Bool) (start marker k : Nat) : List Nat :=
  if ordered then
    let cnt := if start ≠ 0 then start else 1
    natDigits (cnt + k) ++ [marker, 32]
  else [marker, 32]

/-- Outcome of one CLI path argument in `mainCmd.Run`: `os.Stat` fails,
or the path is a regular file whose processing succeeds or fails, or a
directory whose walk visits entries, each visit succeeding or failing. -/
inductive PathOutcome where
  | statErr
  | file (ok : Bool)
  | dir (visits : List Bool)

/-- CLI state threaded through `Run`: the recorded exit code (set to 2 by
`mainCmd.report`) and how many path arguments have been handled. -/
structure CliState where
  exitCode : Nat
  processed : Nat

/-- `mainCmd.report` from cmd/markdownfmt/main.go: print the error and
set `exitCode = 2`. -/
def reportErr (st : CliState) : CliState := { st with exitCode := 2 }

/-- `mainCmd.visitFile`: process one walked entry, reporting on error;
always returns nil to `filepath.Walk`, so the walk continues. -/
def visitFileStep (st : CliState) (ok : Bool) : CliState :=
  if ok then st else reportErr st

/-- `mainCmd.walkDir`: walk all entries of a directory. -/
def walkDir (st : CliState) (visits : List Bool) : CliState :=
  visits.foldl visitFileStep st

/-- One iteration of the path loop in `mainCmd.Run`: a `Stat` error is
reported, a directory is walked (the walk itself returns nil because
`visitFile` always returns nil), a file failure is reported; in every
case the loop advances to the next path. -/
def runPath (st : CliState) : PathOutcome → CliState
  | .statErr => { reportErr st with processed := st.processed + 1 }
  | .dir visits =>
    { walkDir st visits with processed := st.processed + 1 }
  | .file ok =>
    if ok then { st with processed := st.processed + 1 }
    else { reportErr st with processed := st.processed + 1 }

/-- The path loop of `mainCmd.Run` over all arguments, starting from the
zero exit code. -/
def runPaths (args : List PathOutcome) : CliState :=
  args.foldl runPath ⟨0, 0⟩

/-- Whether handling a path involved any failure. -/
def pathFailed : PathOutcome → Bool
  | .statErr => true
  | .file ok => !ok
  | .dir visits => visits.any (fun v => !v)
/-- GFM column alignment (`extAST.Alignment`). -/
inductive Alignment where
  | none | left | right | center
  deriving DecidableEq, Repr

/-- Emission of one table cell in the second pass of `renderTable`
(randerer_table.go): write `| `, then the cell bytes padded to the
column width per alignment.  `wfn` models `runewidth.StringWidth`;
`whitespaceWidth := width - wfn cell` is non-negative because the first
pass took the maximum over the same cells.  The Go `switch` makes the
default fall through to left alignment. -/
def renderTableCellBytes (align : Alignment) (width : Nat)
    (wfn : List Nat → Nat) (cell : List Nat) : List Nat :=
  let ws := width - wfn cell
  [124, 32] ++
    match align with
    | .center =>
      List.replicate (ws / 2) 32 ++ cell ++
        List.replicate (ws - ws / 2) 32 ++ [32]
    | .right => List.replicate ws 32 ++ cell ++ [32]
    | _ => cell ++ List.replicate (1 + ws) 32

/-! ## The document AST

The goldmark node kinds handled by `renderNode` that this embedding
covers (the block structure, plain text with line-break flags, and
tables); purely inline wrapper spans (emphasis, links, code spans, etc.)
are outside the scope of the claims below and are not modelled. -/

inductive NodeKind where
  | document | paragraph | textBlock | heading | text
  | codeBlock          -- ast.CodeBlock and ast.FencedCodeBlock
  | thematicBreak | blockquote | list | listItem | htmlBlock
  | table | tableRow | tableHeader | tableCell
  | unknown            -- any node kind with no case in the renderer
  deriving DecidableEq, Repr

/-- Node attributes; each field mirrors the goldmark field named in its
comment and is meaningful only for the corresponding kind. -/
structure NodeData where
  content : List Nat := []                 -- Text: Segment.Value(source)
  soft : Bool := false                     -- Text.SoftLineBreak()
  hard : Bool := false                     -- Text.HardLineBreak()
  level : Nat := 0                         -- Heading.Level
  headingID : Option (List Nat) := none    -- heading id attribute
  fenced : Bool := false                   -- node is *ast.FencedCodeBlock
  info : Option (List Nat) := none         -- FencedCodeBlock.Info bytes
  lines : List (List Nat) := []            -- code / HTML block source lines
  closure : Option (List Nat) := none      -- HTMLBlock.ClosureLine, if non-empty
  ordered : Bool := false                  -- List.IsOrdered()
  start : Nat := 0                         -- List.Start (0 when unset)
  marker : Nat := 45                       -- List.Marker byte
  align : Alignment := .none               -- TableCell.Alignment

/-- A goldmark AST node: kind, attributes, the
`HasBlankPreviousLines` flag, and children. -/
inductive Node where
  | mk (kind : NodeKind) (data : NodeData) (blankPrev : Bool)
      (children : List Node)

def Node.kind : Node → NodeKind
  | .mk k _ _ _ => k

def Node.data : Node → NodeData
  | .mk _ d _ _ => d

def Node.blankPrev : Node → Bool
  | .mk _ _ b _ => b

def Node.children : Node → List Node
  | .mk _ _ _ c => c

/-- Renderer configuration (`markdown.Renderer` fields, renderer.go).
`width` models the external `runewidth.StringWidth` collaborator. -/
structure RenderConfig where
  underlineHeadings : Bool := false
  softWraps : Bool := false
  formatters : List (List Nat × (List Nat → List Nat)) := []
  width : List Nat → Nat

/-- Render errors: `structural` for the `errors.Errorf` returns
(unexpected tree type, table row outside `renderTable`), `panic` for Go
runtime panics (failed type assertion, out-of-range index). -/
inductive RenderErr where
  | structural
  | panic
  deriving DecidableEq, Repr

/-! ## The indent-tracking output stream

Modelled from the spec: the `lineIndentWriter` implementation
(writer_indent.go) is not among the provided sources — only its call
sites are.  Per spec section 4.1: the writer wraps a byte sink; on any
write, if the previous character was a newline, it first emits the
current indent, where the indent's hard prefix (trimmed of trailing
spaces) is printed even before blank lines and the trailing whitespace
only when content follows; `updateIndent` collects, outer to inner,
a quote mark plus space per blockquote ancestor and marker-width spaces
per list-item ancestor.  Spec section 9 blesses maintaining the indent
as an incremental push/pop stack in place of recomputation. -/

inductive IndentEntry where
  | quote            -- a blockquote ancestor: the quote mark and a space
  | pad (n : Nat)    -- a list-item ancestor: marker-width spaces
  deriving DecidableEq, Repr

def entryBytes : IndentEntry → List Nat
  | .quote => [62, 32]
  | .pad n => List.replicate n 32

/-- Events produced by one render traversal: raw writes and indent
stack updates (`UpdateIndent` on enter/exit). -/
inductive REvent where
  | emit (bs : List Nat)
  | push (e : IndentEntry)
  | pop

/-- Writer state: bytes written so far, whether the previous emitted
character was a newline (true initially: the stream starts at a line
start), and the indent stack, outermost first. -/
structure WState where
  outBytes : List Nat
  prevNL : Bool
  stack : List IndentEntry

def indentBytes (stack : List IndentEntry) : List Nat :=
  (stack.map entryBytes).flatten

def trimRightSpaces (l : List Nat) : List Nat :=
  (l.reverse.dropWhile (fun b => b = 32)).reverse

def writeByte (w : WState) (c : Nat) : WState :=
  let pre : List Nat :=
    if w.prevNL then
      if c = 10 then trimRightSpaces (indentBytes w.stack)
      else indentBytes w.stack
    else []
  { w with outBytes := w.outBytes ++ pre ++ [c], prevNL := c = 10 }

def writeBytes (w : WState) (bs : List Nat) : WState := bs.foldl writeByte w

def applyEvent (w : WState) : REvent → WState
  | .emit bs => writeBytes w bs
  | .push e => { w with stack := w.stack ++ [e] }
  | .pop => { w with stack := w.stack.dropLast }

def runEvents (w : WState) (evs : List REvent) : WState :=
  evs.foldl applyEvent w

def initialW : WState := ⟨[], true, []⟩

/-- The logical byte stream of an event list: the concatenation of all
write payloads, before the writer's indent injection. -/
def logicalBytes : List REvent → List Nat
  | [] => []
  | .emit bs :: rest => bs ++ logicalBytes rest
  | .push _ :: rest => logicalBytes rest
  | .pop :: rest => logicalBytes rest

/-! ## Helpers of the code-block branch (renderer.go) -/

/-- ASCII white space, the byte-level reading of `unicode.IsSpace` used
by `bytes.Fields`. -/
def isSpaceByte (b : Nat) : Bool :=
  b = 32 || b = 9 || b = 10 || b = 13 || b = 11 || b = 12

/-- `bytes.Fields`: split around runs of white space. -/
def fieldsBytes (s : List Nat) : List (List Nat) :=
  (s.splitOnP isSpaceByte).filter (fun f => f ≠ [])

/-- `bytes.TrimSpace`. -/
def trimSpaceBytes (l : List Nat) : List Nat :=
  ((l.dropWhile isSpaceByte).reverse.dropWhile isSpaceByte).reverse

/-- One word of the info string: `bytes.TrimSpace(bytes.TrimLeft(elt, ". "))`. -/
def trimLangWord (elt : List Nat) : List Nat :=
  trimSpaceBytes (elt.dropWhile (fun b => b = 46 || b = 32))

/-- The first usable word of the fence info string; when no field
survives trimming, `lang` keeps the whole info bytes (the Go loop never
reassigns it). -/
def extractLangGo (info : List Nat) : List (List Nat) → List Nat
  | [] => info
  | elt :: rest =>
    let e := trimLangWord elt
    if e = [] then extractLangGo info rest else e

def extractLang (info : List Nat) : List Nat :=
  extractLangGo info (fieldsBytes info)

/-- Map lookup `r.mr.formatters[lang]`. -/
def lookupFormatter :
    List (List Nat × (List Nat → List Nat)) → List Nat →
      Option (List Nat → List Nat)
  | [], _ => Option.none
  | (n, f) :: rest, lang =>
    if n = lang then some f else lookupFormatter rest lang

/-- Append a newline unless the code already ends with one
(`bytes.HasSuffix(code, newLineChar)` check in renderer.go). -/
def ensureTrailingNL (code : List Nat) : List Nat :=
  if code.getLast? = some 10 then code else code ++ [10]

/-- `bytes.TrimSuffix(o, "\n")` applied to the last HTML block segment. -/
def trimOneTrailingNL (s : List Nat) : List Nat :=
  if s.getLast? = some 10 then s.dropLast else s

/-- The raw HTML block body: all line segments plus the closure line,
with one trailing newline trimmed from the very last segment. -/
def htmlBlockBytes (lines : List (List Nat)) (closure : Option (List Nat)) :
    List Nat :=
  let segs := lines ++ (match closure with | some c => [c] | none => [])
  match segs.reverse with
  | [] => []
  | last :: front => (front.reverse).flatten ++ trimOneTrailingNL last

/-! ## The block separator (renderNode, renderer.go)

Transcribes the `if entering && node.PreviousSibling() != nil` switch at
the top of `renderNode`: two newlines before paragraph, heading, code
block, thematic break, table and blockquote siblings; one newline (plus
one more when the node had blank previous lines) before list and HTML
block siblings; one conditional newline before list items. -/
def blockSeparator (kind : NodeKind) (hasPrev blankPrev : Bool) : List Nat :=
  if !hasPrev then []
  else
    match kind with
    | .paragraph | .heading | .codeBlock | .thematicBreak
    | .table | .blockquote => [10, 10]
    | .list | .htmlBlock => if blankPrev then [10, 10] else [10]
    | .listItem => if blankPrev then [10] else []
    | _ => []

/-- `listItemMarkerChars` at the node level: the Go code asserts
`tnode.Parent().(*ast.List)`, which panics when the parent is absent or
not a list. -/
def listItemMarkerChars (parent : Option Node) (k : Nat) :
    Option (List Nat) :=
  match parent with
  | some p =>
    match p.kind with
    | .list =>
      some (listItemMarkerOf p.data.ordered p.data.start p.data.marker k)
    | _ => Option.none
  | none => Option.none

/-- `|:---:|`-style separator column after the header row
(randerer_table.go): a pipe, a colon or dash per left alignment, the
dashes for the column width, a colon or dash per right alignment. -/
def sepColBytes (align : Alignment) (width : Nat) : List Nat :=
  [124] ++
    [if align = .left ∨ align = .center then 58 else 45] ++
    List.replicate width 45 ++
    [if align = .right ∨ align = .center then 58 else 45]

/-- First-pass table state: the running column index and the collected
column widths and alignments (randerer_table.go). -/
structure TState where
  colIndex : Nat
  widths : List Nat
  aligns : List Alignment

/-- The alignment separator row cells, one per recorded column
alignment, reading the matching width (Go panics when it is missing). -/
def sepRowEvents (widths : List Nat) (aligns : List Alignment) (i : Nat) :
    Except RenderErr (List REvent) :=
  match aligns with
  | [] => pure []
  | a :: rest => do
    let w ←
      match widths.get? i with
      | some w => pure w
      | none => .error RenderErr.panic
    let tail ← sepRowEvents widths rest (i + 1)
    pure ([.emit (sepColBytes a w)] ++ tail)

/-- The immediate quote-mark write of the blockquote branch: emitted
when the parent exists, is a list item, and the blockquote has no
previous sibling. -/
def blockquoteImmediate (parent : Option Node) (idx : Nat) : List REvent :=
  match parent with
  | some p =>
    if p.kind = NodeKind.listItem ∧ idx = 0 then [.emit [62, 32]] else []
  | none => []

def NodeKind.one_le_sizeOf (k : NodeKind) : 1 ≤ sizeOf k := by
  cases k <;> simp

def Node.sizeOf_children_lt (n : Node) : sizeOf n.children < sizeOf n := by
  cases n with
  | mk k d b c =>
    simp only [Node.children, Node.mk.sizeOf_spec]
    omega

def Node.sizeOf_children_succ_lt (n : Node) :
    sizeOf n.children + 1 < sizeOf n := by
  cases n with
  | mk k d b c =>
    have := NodeKind.one_le_sizeOf k
    simp only [Node.children, Node.mk.sizeOf_spec]
    omega

mutual

/-- `renderNode` from `markdown/renderer.go`: the block separator write
that opens every entering visit, followed by the kind dispatch
(`renderNodeCore`).  `parent` is the node's parent, `idx` its number of
previous siblings, `next` the kind of its next sibling. -/
def renderNodeB (cfg : RenderConfig) (parent : Option Node) (idx : Nat)
    (next : Option NodeKind) (n : Node) :
    Except RenderErr (List REvent) :=
  (renderNodeCore cfg parent idx next n).map
    (fun body =>
      .emit (blockSeparator n.kind (idx ≠ 0) n.blankPrev) :: body)
termination_by sizeOf n + 1
decreasing_by
  all_goals simp_wf
  all_goals first
    | exact Node.sizeOf_children_lt _
    | exact Node.sizeOf_children_succ_lt _
    | omega

/-- The kind dispatch of `renderNode` (plus `renderHeading` from
heading.go and `renderTable` from randerer_table.go), producing the
writes and indent updates of the walk over one node after the block
separator. -/
def renderNodeCore (cfg : RenderConfig) (parent : Option Node) (idx : Nat)
    (next : Option NodeKind) (n : Node) :
    Except RenderErr (List REvent) := do
  match hk : n.kind with
  | .document => do
    let body ← renderChildrenB cfg n 0 n.children
    pure (body ++ [.emit [10]])
  | .text => do
    let clean := cleanWithoutTrim n.data.content
    let enterEvs : List REvent := if clean = [] then [] else [.emit clean]
    let body ← renderChildrenB cfg n 0 n.children
    let softEvs : List REvent :=
      if n.data.soft then
        [.emit (if cfg.softWraps then [10] else [32])]
      else []
    let hardEvs : List REvent :=
      if n.data.hard then
        (if n.data.soft then [REvent.emit [32]] else []) ++ [.emit [10]]
      else []
    pure (enterEvs ++ body ++ softEvs ++ hardEvs)
  | .paragraph => do
    let body ← renderChildrenB cfg n 0 n.children
    pure body
  | .textBlock => do
    let body ← renderChildrenB cfg n 0 n.children
    pure body
  | .tableCell => do
    let body ← renderChildrenB cfg n 0 n.children
    pure body
  | .heading => do
    renderHeadingB cfg n.data.level n.data.headingID n.children
  | .htmlBlock =>
    pure [.emit (htmlBlockBytes n.data.lines n.data.closure)]
  | .codeBlock => do
    let rawInfo : Option (List Nat) :=
      if n.data.fenced then n.data.info else Option.none
    let infoEvs : List REvent :=
      match rawInfo with
      | some i => [.emit i]
      | none => []
    let lang : List Nat :=
      match rawInfo with
      | some i => extractLang i
      | none => []
    let codeBuf := n.data.lines.flatten
    let codeEvs : List REvent :=
      match lookupFormatter cfg.formatters lang with
      | some f => [.emit (ensureTrailingNL (f codeBuf))]
      | none => [.emit codeBuf]
    pure ([REvent.emit [96, 96, 96]] ++ infoEvs ++ [.emit [10]] ++ codeEvs ++
      [.emit [96, 96, 96]])
  | .thematicBreak => do
    let body ← renderChildrenB cfg n 0 n.children
    pure (.emit [45, 45, 45] :: body)
  | .blockquote => do
    let immediate := blockquoteImmediate parent idx
    let body ← renderChildrenB cfg n 0 n.children
    pure (.push .quote :: immediate ++ body ++ [.pop])
  | .list => do
    let body ← renderChildrenB cfg n 0 n.children
    pure body
  | .listItem => do
    match listItemMarkerChars parent idx with
    | none => .error .panic
    | some marker => do
      let body ← renderChildrenB cfg n 0 n.children
      let exitNL : List REvent :=
        if next = some NodeKind.listItem then [.emit [10]] else []
      pure (.emit marker :: .push (.pad marker.length) ::
        body ++ exitNL ++ [.pop])
  | .table => do
    let st ← pass1List cfg NodeKind.table ⟨0, [], []⟩ n.children
    let res ← pass2List cfg st.widths st.aligns NodeKind.table st.colIndex
      n.children
    pure res.2
  | .tableRow => .error .structural
  | .tableHeader => .error .structural
  | .unknown => .error .structural
termination_by sizeOf n
decreasing_by
  all_goals simp_wf
  all_goals first
    | exact Node.sizeOf_children_lt _
    | exact Node.sizeOf_children_succ_lt _
    | omega

/-- The walk over a node's children, threading the sibling index and
peeking at the following sibling's kind. -/
def renderChildrenB (cfg : RenderConfig) (parent : Node) (idx : Nat) :
    List Node → Except RenderErr (List REvent)
  | [] => pure []
  | [c] => renderNodeB cfg (some parent) idx Option.none c
  | c :: c2 :: rest => do
    let evs ← renderNodeB cfg (some parent) idx (some c2.kind) c
    let evs2 ← renderChildrenB cfg parent (idx + 1) (c2 :: rest)
    pure (evs ++ evs2)
termination_by l => sizeOf l
decreasing_by
  all_goals simp_wf
  all_goals first
    | exact Node.sizeOf_children_lt _
    | exact Node.sizeOf_children_succ_lt _
    | omega

/-- `renderHeading` from heading.go: the hash prefix unless an underline
heading, the children rendered through a fresh writer into a scratch
buffer, the optional ` {#id}` suffix, and for underline headings a
newline plus a row of `=` or `-` matching the display width. -/
def renderHeadingB (cfg : RenderConfig) (level : Nat)
    (headingID : Option (List Nat)) (children : List Node) :
    Except RenderErr (List REvent) := do
  let underline := cfg.underlineHeadings && level ≤ 2
  let prefixEvs : List REvent :=
    if underline then []
    else [.emit (List.replicate level 35 ++ [32])]
  let childEvs ← renderChildrenB cfg
    (.mk .heading {} false children) 0 children
  let headBytes0 := (runEvents initialW childEvs).outBytes
  let headBytes :=
    match headingID with
    | some i => headBytes0 ++ [32, 123, 35] ++ i ++ [125]
    | none => headBytes0
  let underlineEvs : List REvent :=
    if underline then
      [.emit [10],
        .emit (match level with
          | 1 => List.replicate (cfg.width headBytes) 61
          | 2 => List.replicate (cfg.width headBytes) 45
          | _ => [])]
    else []
  pure (prefixEvs ++ [.emit headBytes] ++ underlineEvs)
termination_by sizeOf children + 1
decreasing_by
  all_goals simp_wf
  all_goals first
    | exact Node.sizeOf_children_lt _
    | exact Node.sizeOf_children_succ_lt _
    | omega

/-- First pass of `renderTable`: update the column state for one node of
the walk below the table (rows and headers reset the column index,
cells are measured by rendering into a scratch buffer, anything else is
a fatal structural error). -/
def pass1Node (cfg : RenderConfig) (parentKind : NodeKind) (st : TState) :
    Node → Except RenderErr TState
  | n =>
    match n.kind with
    | .tableRow => pass1List cfg NodeKind.tableRow { st with colIndex := 0 }
        n.children
    | .tableHeader => pass1List cfg NodeKind.tableHeader
        { st with colIndex := 0 } n.children
    | .tableCell => do
      let aligns' :=
        if parentKind = NodeKind.tableHeader then st.aligns ++ [n.data.align]
        else st.aligns
      let evs ← renderChildrenB cfg n 0 n.children
      let w := cfg.width (runEvents initialW evs).outBytes
      let widths' :=
        if st.widths.length ≤ st.colIndex then st.widths ++ [w]
        else if w > st.widths.getD st.colIndex 0 then
          st.widths.set st.colIndex w
        else st.widths
      pure ⟨st.colIndex + 1, widths', aligns'⟩
    | _ => .error .structural
termination_by n => sizeOf n
decreasing_by
  all_goals simp_wf
  all_goals first
    | exact Node.sizeOf_children_lt _
    | exact Node.sizeOf_children_succ_lt _
    | omega

def pass1List (cfg : RenderConfig) (parentKind : NodeKind) (st : TState) :
    List Node → Except RenderErr TState
  | [] => pure st
  | c :: rest => do
    let st' ← pass1Node cfg parentKind st c
    pass1List cfg parentKind st' rest
termination_by l => sizeOf l
decreasing_by
  all_goals simp_wf
  all_goals first
    | exact Node.sizeOf_children_lt _
    | exact Node.sizeOf_children_succ_lt _
    | omega

/-- Second pass of `renderTable` for one node: a row writes a leading
newline, its cells, and a closing pipe; the header writes its cells, a
`|`-newline, the alignment separator row and a closing pipe; a cell is
re-rendered and padded to the recorded column width (the width and
alignment lookups panic when out of range, as Go slice indexing does). -/
def pass2Node (cfg : RenderConfig) (widths : List Nat)
    (aligns : List Alignment) (parentKind : NodeKind) (colIndex : Nat) :
    Node → Except RenderErr (Nat × List REvent)
  | n =>
    match n.kind with
    | .tableRow => do
      let res ← pass2List cfg widths aligns NodeKind.tableRow 0 n.children
      pure (res.1, [.emit [10]] ++ res.2 ++ [.emit [124]])
    | .tableHeader => do
      let res ← pass2List cfg widths aligns NodeKind.tableHeader 0 n.children
      let sepRow ← sepRowEvents widths aligns 0
      pure (res.1, res.2 ++ [.emit [124, 10]] ++ sepRow ++ [.emit [124]])
    | .tableCell => do
      let width ←
        match widths.get? colIndex with
        | some w => pure w
        | none => .error RenderErr.panic
      let align0 ←
        match aligns.get? colIndex with
        | some a => pure a
        | none => .error RenderErr.panic
      let align :=
        if parentKind = NodeKind.tableHeader then Alignment.left else align0
      let evs ← renderChildrenB cfg n 0 n.children
      let cellBytes := (runEvents initialW evs).outBytes
      pure (colIndex + 1,
        [.emit (renderTableCellBytes align width cfg.width cellBytes)])
    | _ => .error .structural
termination_by n => sizeOf n
decreasing_by
  all_goals simp_wf
  all_goals first
    | exact Node.sizeOf_children_lt _
    | exact Node.sizeOf_children_succ_lt _
    | omega

def pass2List (cfg : RenderConfig) (widths : List Nat)
    (aligns : List Alignment) (parentKind : NodeKind) (colIndex : Nat) :
    List Node → Except RenderErr (Nat × List REvent)
  | [] => pure (colIndex, [])
  | c :: rest => do
    let res ← pass2Node cfg widths aligns parentKind colIndex c
    let res2 ← pass2List cfg widths aligns parentKind res.1 rest
    pure (res2.1, res.2 ++ res2.2)
termination_by l => sizeOf l
decreasing_by
  all_goals simp_wf
  all_goals first
    | exact Node.sizeOf_children_lt _
    | exact Node.sizeOf_children_succ_lt _
    | omega

end

/-- `Renderer.Render`: walk the document producing events, then run them
through the indent-tracking writer; the output is the written bytes. -/
def Render (cfg : RenderConfig) (doc : Node) : Except RenderErr (List Nat) :=
  (renderNodeB cfg Option.none 0 Option.none doc).map
    (fun evs => (runEvents initialW evs).outBytes)

/-- A concrete configuration for witnesses: default options, no code
formatters, display width measured as byte count. -/
def plainConfig : RenderConfig := { width := List.length }

/-! ## C6: center-aligned table cell padding -/

/-- A document holding one fenced code block whose literal content has
two consecutive blank lines — the parser produces exactly this shape for
a fenced block containing two empty lines. -/
def tripleNLDoc : Node :=
  .mk .document {} false
    [.mk .codeBlock
      { fenced := true, lines := [[97, 10], [10], [10], [98, 10]] } false []]

/-- The Go source formatter of `DefaultCodeFormatters`, parameterized by
an oracle for `format.Source` (`none` models an internal gofmt error):
on error the original source bytes are returned unchanged. -/
def goFormatWith (gofmt : List Nat → Option (List Nat)) (src : List Nat) :
    List Nat :=
  match gofmt src with
  | some out => out
  | none => src

/-- Two `Except` results related: equal errors, or both successes whose
values satisfy `R`. -/
def ExceptRel {α β : Type} (R : α → β → Prop) :
    Except RenderErr α → Except RenderErr β → Prop
  | .error e, .error f => e = f
  | .ok a, .ok b => R a b
  | _, _ => False
/-- First-pass table states related: same column index, same number of
collected widths (their values may differ with the width function), and
identical alignments. -/
def TStRel (s1 s2 : TState) : Prop :=
  s1.colIndex = s2.colIndex ∧ s1.widths.length = s2.widths.length ∧
    s1.aligns = s2.aligns
/-- The always-failing `format.Source` oracle, for the witness. -/
def goFmtFail : List Nat → Option (List Nat) := fun _ => Option.none

/-- A configuration registering the Go formatter (language name `go`,
bytes 103 111) built on the failing oracle. -/
def cfgGo : RenderConfig :=
  { width := List.length,
    formatters := [([103, 111], goFormatWith goFmtFail)] }

/-- A fenced `go` code block whose literal is `a` plus newline. -/
def cbNode : Node :=
  .mk .codeBlock
    { fenced := true, info := some [103, 111], lines := [[97, 10]] } false []

/-- No byte is a newline. -/
def noNL (s : List Nat) : Prop := ∀ b ∈ s, b ≠ 10

/-- Length of the leading newline run. -/
def leadNL : List Nat → Nat
  | [] => 0
  | b :: rest => if b = 10 then leadNL rest + 1 else 0

/-- Length of the trailing newline run. -/
def trailNL (s : List Nat) : Nat := leadNL s.reverse

/-- No run of three consecutive newlines. -/
def noTriple3 (s : List Nat) : Prop := ¬ ([10, 10, 10] <:+: s)
/-- A plain inline text node: no children, non-empty source segment. -/
def WfText (n : Node) : Prop :=
  n.kind = NodeKind.text ∧ n.children = [] ∧ n.data.content ≠ []

/-- The text node carries no soft or hard line break. -/
def NoBreak (n : Node) : Prop :=
  n.data.soft = false ∧ n.data.hard = false

/-- The last node of an inline run, if any, carries no line break. -/
def lastNoBreak (l : List Node) : Prop :=
  match l.getLast? with
  | some c => NoBreak c
  | none => True

/-- A table cell: its children are break-free inline texts. -/
def WfCell (n : Node) : Prop :=
  n.kind = NodeKind.tableCell ∧ ∀ c ∈ n.children, WfText c ∧ NoBreak c

/-- A table row (or the header row) of kind `k` with exactly `m` cells. -/
def WfRow (k : NodeKind) (m : Nat) (n : Node) : Prop :=
  n.kind = k ∧ n.children.length = m ∧ ∀ c ∈ n.children, WfCell c

/-- Configuration sanity: the display-width callback is positive on
non-empty byte strings (true of `runewidth.StringWidth`), and every
registered code formatter produces output whose newline-terminated form
never carries a blank-line run when entered after a newline. -/
def WfCfg (cfg : RenderConfig) : Prop :=
  (∀ s : List Nat, s ≠ [] → 0 < cfg.width s) ∧
  (∀ lang f, lookupFormatter cfg.formatters lang = some f →
    ∀ code, noTriple3 (10 :: ensureTrailingNL (f code)))

mutual

/-- Well-formed block nodes: the shapes the goldmark parser produces,
with literal-content side conditions ruling out embedded blank-line
runs. -/
inductive WfBlock : Node → Prop where
  | paragraph (d : NodeData) (bp : Bool) (ch : List Node) :
      ch ≠ [] → (∀ c ∈ ch, WfText c) → lastNoBreak ch →
      WfBlock (.mk .paragraph d bp ch)
  | textBlock (d : NodeData) (bp : Bool) (ch : List Node) :
      ch ≠ [] → (∀ c ∈ ch, WfText c) → lastNoBreak ch →
      WfBlock (.mk .textBlock d bp ch)
  | heading (d : NodeData) (bp : Bool) (ch : List Node) :
      ch ≠ [] → (∀ c ∈ ch, WfText c ∧ NoBreak c) →
      1 ≤ d.level →
      (∀ i, d.headingID = some i → noNL i) →
      WfBlock (.mk .heading d bp ch)
  | codeBlock (d : NodeData) (bp : Bool) (ch : List Node) :
      noTriple3 (10 :: d.lines.flatten) →
      (∀ i, d.info = some i → noNL i) →
      WfBlock (.mk .codeBlock d bp ch)
  | thematicBreak (d : NodeData) (bp : Bool) :
      WfBlock (.mk .thematicBreak d bp [])
  | blockquote (d : NodeData) (bp : Bool) (ch : List Node) :
      ch ≠ [] → (∀ c ∈ ch, WfBlock c) →
      WfBlock (.mk .blockquote d bp ch)
  | list (d : NodeData) (bp : Bool) (ch : List Node) :
      ch ≠ [] → d.marker ≠ 10 → (∀ c ∈ ch, WfItem c) →
      WfBlock (.mk .list d bp ch)
  | htmlBlock (d : NodeData) (bp : Bool) (ch : List Node) :
      htmlBlockBytes d.lines d.closure ≠ [] →
      leadNL (htmlBlockBytes d.lines d.closure) = 0 →
      trailNL (htmlBlockBytes d.lines d.closure) = 0 →
      noTriple3 (htmlBlockBytes d.lines d.closure) →
      WfBlock (.mk .htmlBlock d bp ch)
  | table (d : NodeData) (bp : Bool) (hd : Node) (rows : List Node)
      (m : Nat) :
      WfRow NodeKind.tableHeader m hd →
      (∀ r ∈ rows, WfRow NodeKind.tableRow m r) →
      WfBlock (.mk .table d bp (hd :: rows))

/-- Well-formed list items: a non-empty run of well-formed blocks. -/
inductive WfItem : Node → Prop where
  | item (d : NodeData) (bp : Bool) (ch : List Node) :
      ch ≠ [] → (∀ c ∈ ch, WfBlock c) → WfItem (.mk .listItem d bp ch)

end

/-- A well-formed document: a document node with a non-empty run of
well-formed block children. -/
def WfDoc (n : Node) : Prop :=
  n.kind = NodeKind.document ∧ n.children ≠ [] ∧
    ∀ c ∈ n.children, WfBlock c

/-- An event run consisting solely of byte writes (no indent updates). -/
def EmitsOnly (evs : List REvent) : Prop :=
  ∀ e ∈ evs, ∃ bs, e = REvent.emit bs

/-- The logical byte stream of one well-formed block's render: non-empty,
opens and closes on a non-newline byte, and free of blank-line runs. -/
def StreamOK (l : List Nat) : Prop :=
  l ≠ [] ∧ leadNL l = 0 ∧ trailNL l = 0 ∧ noTriple3 l

/-- Writer-state invariant against the logical history `L` (the bytes
handed to the writer so far, behind a virtual initial newline): the
output has no blank-line run, its trailing newline run never exceeds the
history's, its line-start flag and last byte track the history, and it
is at most one byte (the virtual newline) shorter. -/
def WinvL (w : WState) (L : List Nat) : Prop :=
  noTriple3 w.outBytes ∧
  trailNL w.outBytes ≤ trailNL L ∧
  (w.prevNL = true ↔ L.getLast? = some 10) ∧
  (w.outBytes = [] ∨ w.outBytes.getLast? = L.getLast?) ∧
  L.length ≤ w.outBytes.length + 1
/-- A sample well-formed document: one paragraph holding the text
`hi`. -/
def wfDocExample : Node :=
  .mk .document {} false
    [.mk .paragraph {} false [.mk .text { content := [104, 105] } false []]]

/-! ## Theorems -/

theorem cleanWithoutTrimGo_eq_collapseGo (l : List Nat) :
    ∀ p, cleanWithoutTrimGo p l = collapseGo p (l.map replaceWS) := by
  induction l with
  | nil => intro p; rfl
  | cons b rest ih =>
    intro p
    simp only [cleanWithoutTrimGo, List.map_cons, collapseGo, replaceWS]
    by_cases h : (if b = 10 ∨ b = 13 ∨ b = 9 then 32 else b) ≠ 32 ∨ p ≠ 32
    · rw [if_pos h, if_pos h, ih]
    · rw [if_neg h, if_neg h, ih]

theorem cons_collapseGo_eq_collapseSpaces (l : List Nat) :
    ∀ a, a :: collapseGo a l = collapseSpaces (a :: l) := by
  induction l with
  | nil => intro a; rfl
  | cons b rest ih =>
    intro a
    simp only [collapseGo, collapseSpaces]
    by_cases h : a = 32 ∧ b = 32
    · rw [if_pos h, if_neg (by simp [h.1, h.2]), ← ih]
      simp [h.1, h.2]
    · have h' : b ≠ 32 ∨ a ≠ 32 := by tauto
      rw [if_pos h', if_neg h, ← ih]

theorem cleanWithoutTrim_eq_cleanSpec (s : List Nat) :
    cleanWithoutTrim s = cleanSpec s := by
  cases s with
  | nil => rfl
  | cons b rest =>
    have h0 : (replaceWS b ≠ 32 ∨ (0 : Nat) ≠ 32) := Or.inr (by decide)
    simp only [cleanWithoutTrim, cleanWithoutTrimGo_eq_collapseGo, cleanSpec,
      List.map_cons, collapseGo, if_pos h0]
    exact cons_collapseGo_eq_collapseSpaces _ _

theorem collapseSpaces_eq_self_of_noDS (l : List Nat) (h : noDS l) :
    collapseSpaces l = l := by
  induction l with
  | nil => rfl
  | cons a rest ih =>
    cases rest with
    | nil => rfl
    | cons b rest2 =>
      obtain ⟨h1, h2⟩ := h
      simp only [List.head?] at h1
      have hne : ¬(a = 32 ∧ b = 32) := by
        intro hc; exact h1 ⟨hc.1, by rw [hc.2]⟩
      simp only [collapseSpaces, if_neg hne]
      rw [ih h2]

theorem collapseGo_noDS (l : List Nat) :
    ∀ p, noDS (collapseGo p l) ∧
      (p = 32 → (collapseGo p l).head? ≠ some 32) := by
  induction l with
  | nil => intro p; exact ⟨trivial, fun _ => by simp [collapseGo]⟩
  | cons q rest ih =>
    intro p
    simp only [collapseGo]
    by_cases h : q ≠ 32 ∨ p ≠ 32
    · rw [if_pos h]
      refine ⟨⟨?_, (ih q).1⟩, ?_⟩
      · rintro ⟨hq, hh⟩
        exact (ih q).2 (by rw [hq]) hh
      · intro hp
        have hq : q ≠ 32 := by
          rcases h with h | h
          · exact h
          · exact absurd hp h
        simp [hq]
    · rw [if_neg h]
      push_neg at h
      refine ⟨(ih p).1, fun hp => (ih p).2 hp⟩

theorem collapseGo_subset (l : List Nat) :
    ∀ p x, x ∈ collapseGo p l → x ∈ l := by
  induction l with
  | nil => intro p x hx; simp [collapseGo] at hx
  | cons q rest ih =>
    intro p x hx
    simp only [collapseGo] at hx
    by_cases h : q ≠ 32 ∨ p ≠ 32
    · rw [if_pos h] at hx
      rcases List.mem_cons.1 hx with h1 | h1
      · exact List.mem_cons.2 (Or.inl h1)
      · exact List.mem_cons.2 (Or.inr (ih q x h1))
    · rw [if_neg h] at hx
      exact List.mem_cons.2 (Or.inr (ih p x hx))

theorem replaceWS_idem (b : Nat) : replaceWS (replaceWS b) = replaceWS b := by
  unfold replaceWS
  by_cases h : b = 10 ∨ b = 13 ∨ b = 9
  · rw [if_pos h]; decide
  · rw [if_neg h, if_neg h]

theorem map_replaceWS_cleanWithoutTrim (s : List Nat) :
    (cleanWithoutTrim s).map replaceWS = cleanWithoutTrim s := by
  rw [cleanWithoutTrim, cleanWithoutTrimGo_eq_collapseGo]
  have h : ∀ x ∈ collapseGo 0 (s.map replaceWS), replaceWS x = id x := by
    intro x hx
    obtain ⟨b, _, rfl⟩ := List.mem_map.1 (collapseGo_subset _ 0 x hx)
    exact replaceWS_idem b
  rw [List.map_congr_left h, List.map_id]

theorem cleanWithoutTrim_idem (s : List Nat) :
    cleanWithoutTrim (cleanWithoutTrim s) = cleanWithoutTrim s := by
  rw [cleanWithoutTrim_eq_cleanSpec (cleanWithoutTrim s), cleanSpec,
    map_replaceWS_cleanWithoutTrim]
  apply collapseSpaces_eq_self_of_noDS
  rw [cleanWithoutTrim, cleanWithoutTrimGo_eq_collapseGo]
  exact (collapseGo_noDS (s.map replaceWS) 0).1

/-- C2: the whitespace cleaner replaces `\n`, `\r`, `\t` by spaces and
collapses space runs (it equals the replace-then-collapse specification),
it is idempotent on every byte string, and it maps `"foo    bar"` and
`"foo\n\t\r\nbar"` to `"foo bar"`. -/
theorem clean_idempotent_and_examples :
    (∀ s : List Nat, cleanWithoutTrim s = cleanSpec s) ∧
    (∀ s : List Nat, cleanWithoutTrim (cleanWithoutTrim s) = cleanWithoutTrim s) ∧
    cleanWithoutTrim [102, 111, 111, 32, 32, 32, 32, 98, 97, 114] =
      [102, 111, 111, 32, 98, 97, 114] ∧
    cleanWithoutTrim [102, 111, 111, 10, 9, 13, 10, 98, 97, 114] =
      [102, 111, 111, 32, 98, 97, 114] :=
  ⟨cleanWithoutTrim_eq_cleanSpec, cleanWithoutTrim_idem, by decide, by decide⟩

/-! ## Escaping (`needsEscaping`, `isNumber`, renderer.go) -/

/-- C3: a single-character token needs escaping exactly when it is one of
the fifteen special characters, or it is `.` and the previously emitted
normal text is purely numeric (`isNumber`); `!` never needs escaping. -/
theorem needsEscaping_single_char :
    (∀ (c : Nat) (s : List Nat),
      needsEscaping [c] s = true ↔
        (c ∈ ([92, 96, 42, 95, 123, 125, 91, 93, 40, 41,
               35, 43, 45, 60, 62] : List Nat) ∨
          (c = 46 ∧ isNumber s = true))) ∧
    (∀ s : List Nat, needsEscaping [33] s = false) := by
  constructor
  · intro c s
    unfold needsEscaping
    simp only [List.cons.injEq, and_true, List.mem_cons, List.not_mem_nil,
      or_false]
    split_ifs with h1 h2 h3 h4 <;> simp_all <;> tauto
  · intro s
    rfl

/-! ## Ordered-list item markers (`listItemMarkerChars`, renderer.go) -/

/-- C7 (marker arithmetic): the k-th item of an ordered list with
configured non-zero start value S is rendered as the decimal digits of
S+k followed by the marker character and a space; with the unset sentinel
start 0 the count defaults to 1; unordered items render as the bullet
marker and a space. -/
theorem listItemMarker_spec :
    (∀ S marker k : Nat, S ≠ 0 →
      listItemMarkerOf true S marker k = natDigits (S + k) ++ [marker, 32]) ∧
    (∀ marker k : Nat,
      listItemMarkerOf true 0 marker k = natDigits (1 + k) ++ [marker, 32]) ∧
    (∀ start marker k : Nat,
      listItemMarkerOf false start marker k = [marker, 32]) := by
  refine ⟨fun S marker k hS => ?_, fun marker k => ?_, fun start marker k => ?_⟩
  · simp [listItemMarkerOf, hS]
  · simp [listItemMarkerOf]
  · simp [listItemMarkerOf]

/-- Witness for `listItemMarker_spec`: the third item of an ordered list
starting at 5 with marker `.` (46) is rendered `7. `. -/
theorem listItemMarker_spec_witness :
    (5 : Nat) ≠ 0 ∧ listItemMarkerOf true 5 46 2 = [55, 46, 32] := by
  refine ⟨by decide, ?_⟩
  have h := listItemMarker_spec.1 5 46 2 (by decide)
  rw [h]
  decide

/-! ## CLI exit codes (`mainCmd.Run`, cmd/markdownfmt/main.go) -/

theorem walkDir_exit (visits : List Bool) :
    ∀ st, walkDir st visits =
      { st with exitCode := if visits.any (fun v => !v) then 2 else st.exitCode } := by
  induction visits with
  | nil => intro st; simp [walkDir]
  | cons v rest ih =>
    intro st
    simp only [walkDir, List.foldl_cons, List.any_cons]
    rw [show List.foldl visitFileStep (visitFileStep st v) rest =
        walkDir (visitFileStep st v) rest from rfl, ih]
    cases v <;> simp [visitFileStep, reportErr]

theorem runPath_exit (a : PathOutcome) (st : CliState) :
    runPath st a =
      { exitCode := if pathFailed a then 2 else st.exitCode,
        processed := st.processed + 1 } := by
  cases a with
  | statErr => simp [runPath, pathFailed, reportErr]
  | file ok => cases ok <;> simp [runPath, pathFailed, reportErr]
  | dir visits => simp [runPath, pathFailed, walkDir_exit]

/-- C9: the CLI path loop processes every path argument (a failure never
aborts the loop), the exit code is 2 as soon as any path fails (stat
error, file processing error, or any failure inside a directory walk),
and it is 0 exactly when no path failed. -/
theorem cli_exit_codes (args : List PathOutcome) :
    runPaths args =
      { exitCode := if args.any pathFailed then 2 else 0,
        processed := args.length } := by
  have main : ∀ (l : List PathOutcome) (st : CliState),
      l.foldl runPath st =
        { exitCode := if l.any pathFailed then 2 else st.exitCode,
          processed := st.processed + l.length } := by
    intro l
    induction l with
    | nil => intro st; simp
    | cons a rest ih =>
      intro st
      simp only [List.foldl_cons, List.any_cons, List.length_cons]
      rw [runPath_exit, ih]
      by_cases h : pathFailed a = true <;> simp [h] <;> omega
  simpa using main args ⟨0, 0⟩

/-! ## Table cell padding (`renderTable`, randerer_table.go) -/

/-- C6 counterexample: a center-aligned body cell of display width 1 in a
column of width 2 (one leftover padding space).  The code computes the
leading padding as the floor of half the leftover, so the single extra
space lands on the trailing side: the emitted cell is `| a  ` (no space
between the bar-space prefix and the content), not `|  a ` as the claim's
leading-side rule would produce. -/
theorem tableCellCenter_counterexample :
    renderTableCellBytes .center 2 List.length [97] = [124, 32, 97, 32, 32] ∧
    renderTableCellBytes .center 2 List.length [97] ≠ [124, 32, 32, 97, 32] := by
  constructor
  · rfl
  · decide

/-- C6 as amended: for a center-aligned cell of display width w in a
column of maximum width W (w ≤ W), the W-w padding spaces are split as
evenly as possible with the extra space (when W-w is odd) placed on the
trailing side of the content: the leading pad is ⌊(W-w)/2⌋ and the
trailing pad is (W-w)-⌊(W-w)/2⌋, so they differ by at most one and the
trailing pad is never smaller. -/
theorem tableCellCenter_amended (W w : Nat) (cell : List Nat)
    (wfn : List Nat → Nat) (hw : wfn cell = w) (hle : w ≤ W) :
    ∃ leadPad trailPad,
      renderTableCellBytes .center W wfn cell =
        [124, 32] ++ List.replicate leadPad 32 ++ cell ++
          List.replicate trailPad 32 ++ [32] ∧
      leadPad + trailPad = W - w ∧
      (trailPad = leadPad ∨ trailPad = leadPad + 1) := by
  refine ⟨(W - w) / 2, (W - w) - (W - w) / 2, ?_, by omega, by omega⟩
  simp [renderTableCellBytes, hw]

/-- Witness for `tableCellCenter_amended`: cell `a` (width 1) in a column
of width 4. -/
theorem tableCellCenter_amended_witness :
    List.length [97] = 1 ∧ 1 ≤ 4 ∧
      ∃ leadPad trailPad,
        renderTableCellBytes .center 4 List.length [97] =
          [124, 32] ++ List.replicate leadPad 32 ++ [97] ++
            List.replicate trailPad 32 ++ [32] ∧
        leadPad + trailPad = 4 - 1 ∧
        (trailPad = leadPad ∨ trailPad = leadPad + 1) :=
  ⟨rfl, by decide, tableCellCenter_amended 4 1 [97] List.length rfl (by decide)⟩

/-! ## C4: blank-line separators between block siblings -/

/-- C4: before every block node with a previous sibling the renderer
emits exactly two newlines for paragraph, heading, code block, thematic
break, table and blockquote nodes; one newline, plus a second only when
the node had blank previous lines, for list and HTML block nodes; for a
list item one newline only when it had blank previous lines; and this
separator is literally the first write of the node's event stream
whenever rendering succeeds. -/
theorem block_separator_spec :
    (∀ blank : Bool,
      blockSeparator .paragraph true blank = [10, 10] ∧
      blockSeparator .heading true blank = [10, 10] ∧
      blockSeparator .codeBlock true blank = [10, 10] ∧
      blockSeparator .thematicBreak true blank = [10, 10] ∧
      blockSeparator .table true blank = [10, 10] ∧
      blockSeparator .blockquote true blank = [10, 10] ∧
      blockSeparator .list true blank = (if blank then [10, 10] else [10]) ∧
      blockSeparator .htmlBlock true blank = (if blank then [10, 10] else [10]) ∧
      blockSeparator .listItem true blank = (if blank then [10] else []) ∧
      (∀ k, blockSeparator k false blank = [])) ∧
    (∀ (cfg : RenderConfig) (parent : Option Node) (idx : Nat)
        (next : Option NodeKind) (n : Node) (evs : List REvent),
      renderNodeB cfg parent idx next n = .ok evs →
      ∃ rest,
        evs = .emit (blockSeparator n.kind (idx ≠ 0) n.blankPrev) :: rest) := by
  constructor
  · intro blank
    refine ⟨rfl, rfl, rfl, rfl, rfl, rfl, by cases blank <;> rfl,
      by cases blank <;> rfl, by cases blank <;> rfl, fun k => rfl⟩
  · intro cfg parent idx next n evs h
    rw [renderNodeB] at h
    rcases hcore : renderNodeCore cfg parent idx next n with e | body
    · rw [hcore] at h
      simp [Except.map] at h
    · rw [hcore] at h
      simp only [Except.map, Except.ok.injEq] at h
      exact ⟨body, h.symm⟩

/-- Witness for `block_separator_spec`: a paragraph that is the second
child of its document is rendered with the two-newline separator as the
first write of its event stream. -/
theorem block_separator_spec_witness :
    ∃ rest,
      [REvent.emit [10, 10], .emit [], .emit [119]] =
        .emit (blockSeparator (Node.mk .paragraph {} false
          [.mk .text { content := [119] } false []]).kind
          ((1 : Nat) ≠ 0)
          (Node.mk .paragraph {} false
            [.mk .text { content := [119] } false []]).blankPrev) :: rest := by
  refine block_separator_spec.2 plainConfig
    (some (Node.mk .document {} false [])) 1 Option.none
    (Node.mk .paragraph {} false [.mk .text { content := [119] } false []])
    [REvent.emit [10, 10], .emit [], .emit [119]] ?_
  simp only [renderNodeB, renderNodeCore, renderChildrenB, plainConfig,
    Node.kind, Node.data, Node.blankPrev, Node.children]
  rfl

/-! ## C8 counterexample: three consecutive newlines in rendered output -/

/-- C8 counterexample: rendering `tripleNLDoc` succeeds and the output
contains a run of three consecutive newlines (the code block's blank
lines pass through verbatim), refuting the claim as stated. -/
theorem render_contains_triple_newline :
    Render plainConfig tripleNLDoc =
      .ok [96, 96, 96, 10, 97, 10, 10, 10, 98, 10, 96, 96, 96, 10] ∧
    [10, 10, 10] <:+:
      [96, 96, 96, 10, 97, 10, 10, 10, 98, 10, 96, 96, 96, 10] := by
  constructor
  · simp only [Render, tripleNLDoc, plainConfig, renderNodeB, renderNodeCore,
      renderChildrenB, Node.kind, Node.data, Node.blankPrev, Node.children]
    rfl
  · exact ⟨[96, 96, 96, 10, 97], [98, 10, 96, 96, 96, 10], by decide⟩

/-! ## C5: code-block formatter failures never fail the render -/

/-- Rendering a code block node always succeeds, whatever formatters are
registered: the code-block branch of `renderNode` consists of plain
writes and returns `WalkSkipChildren` with a nil error. -/
theorem codeBlock_renders_ok (cfg : RenderConfig) (parent : Option Node)
    (idx : Nat) (next : Option NodeKind) (n : Node)
    (hk : n.kind = .codeBlock) :
    ∃ evs, renderNodeB cfg parent idx next n = .ok evs := by
  rcases n with ⟨k, d, bp, ch⟩
  simp only [Node.kind] at hk
  subst hk
  rw [renderNodeB, renderNodeCore]
  exact ⟨_, rfl⟩

/-- When the registered formatter for the block's language is the Go
formatter and it fails internally on the block's literal bytes, the node
renders exactly as it would with no formatter registered: the original
literal is emitted unchanged (its trailing newline makes the
newline-ensuring step a no-op). -/
theorem formatter_failure_emits_original (cfg : RenderConfig)
    (gofmt : List Nat → Option (List Nat)) (parent : Option Node)
    (idx : Nat) (next : Option NodeKind) (n : Node)
    (hk : n.kind = .codeBlock)
    (hfmt : lookupFormatter cfg.formatters
        (match (if n.data.fenced then n.data.info else Option.none) with
          | some i => extractLang i
          | none => []) = some (goFormatWith gofmt))
    (hfail : gofmt n.data.lines.flatten = Option.none)
    (hnl : n.data.lines.flatten.getLast? = some 10) :
    renderNodeB cfg parent idx next n =
      renderNodeB { cfg with formatters := [] } parent idx next n := by
  rcases n with ⟨k, d, bp, ch⟩
  simp only [Node.kind] at hk
  subst hk
  simp only [Node.data] at hfmt hfail hnl
  rw [renderNodeB, renderNodeB, renderNodeCore, renderNodeCore]
  simp only [Node.kind, Node.data, Node.blankPrev, Node.children,
    lookupFormatter, hfmt, goFormatWith, hfail, ensureTrailingNL, hnl,
    if_pos]

/-! ## C10: list items with a non-list parent -/

/-- C10: rendering a list item whose parent is not a list returns the
panic outcome (the unchecked `tnode.Parent().(*ast.List)` type
assertion), not the structural error that other unexpected tree shapes
produce (second conjunct: an unknown node kind); the panic occurs for
every list item rendered without a list parent, so a panic-free render
presupposes that every rendered list item sits under a list. -/
theorem listItem_parent_assertion :
    renderNodeB plainConfig (some (.mk .paragraph {} false [])) 0
        Option.none (.mk .listItem {} false []) = .error .panic ∧
    renderNodeB plainConfig (some (.mk .paragraph {} false [])) 0
        Option.none (.mk .unknown {} false []) = .error .structural ∧
    (∀ (cfg : RenderConfig) (parent : Option Node) (idx : Nat)
        (next : Option NodeKind) (n : Node),
      n.kind = .listItem →
      (match parent with
        | some p => p.kind ≠ NodeKind.list
        | none => True) →
      renderNodeB cfg parent idx next n = .error .panic) := by
  refine ⟨?_, ?_, ?_⟩
  · rw [renderNodeB, renderNodeCore]
    rfl
  · rw [renderNodeB, renderNodeCore]
    rfl
  · intro cfg parent idx next n hk hp
    rcases n with ⟨k, d, bp, ch⟩
    simp only [Node.kind] at hk
    subst hk
    rw [renderNodeB, renderNodeCore]
    have hm : listItemMarkerChars parent idx = Option.none := by
      rcases parent with _ | p
      · rfl
      · have hp2 : p.kind ≠ NodeKind.list := hp
        simp only [listItemMarkerChars]
    rw [hm]
    rfl

/-- Witness for the quantified conjunct of `listItem_parent_assertion`:
the concrete list item under a paragraph parent. -/
theorem listItem_parent_assertion_witness :
    (Node.mk .listItem {} false []).kind = NodeKind.listItem ∧
    (Node.mk .paragraph {} false []).kind ≠ NodeKind.list ∧
    renderNodeB plainConfig (some (.mk .paragraph {} false [])) 0
        Option.none (.mk .listItem {} false []) = .error .panic := by
  refine ⟨rfl, by decide, ?_⟩
  exact listItem_parent_assertion.2.2 plainConfig
    (some (.mk .paragraph {} false [])) 0 Option.none
    (.mk .listItem {} false []) rfl (by simp [Node.kind])

/-! ### Render success is independent of the configuration

Errors in `renderNode` come only from the tree shape (unexpected kinds,
the list-item parent assertion, table index panics); no error path
consults the options, the formatter registry or the width function.
The relational induction below proves it: renders of the same tree under
any two configurations either fail with the same error or both
succeed. -/

theorem ExceptRel.bind_mono {α β γ δ : Type} {R : α → β → Prop}
    {S : γ → δ → Prop} {x : Except RenderErr α} {y : Except RenderErr β}
    {f : α → Except RenderErr γ} {g : β → Except RenderErr δ}
    (h : ExceptRel R x y) (hfg : ∀ a b, R a b → ExceptRel S (f a) (g b)) :
    ExceptRel S (x >>= f) (y >>= g) := by
  cases x with
  | error e =>
    cases y with
    | error f2 =>
      have he : e = f2 := h
      subst he
      exact rfl
    | ok b => exact absurd h (by simp [ExceptRel])
  | ok a =>
    cases y with
    | error f2 => exact absurd h (by simp [ExceptRel])
    | ok b => exact hfg a b h

theorem ExceptRel.map_mono {α β γ δ : Type} {R : α → β → Prop}
    {S : γ → δ → Prop} {x : Except RenderErr α} {y : Except RenderErr β}
    {f : α → γ} {g : β → δ}
    (h : ExceptRel R x y) (hfg : ∀ a b, R a b → S (f a) (g b)) :
    ExceptRel S (x.map f) (y.map g) := by
  cases x with
  | error e =>
    cases y with
    | error f2 =>
      have he : e = f2 := h
      subst he
      exact rfl
    | ok b => exact absurd h (by simp [ExceptRel])
  | ok a =>
    cases y with
    | error f2 => exact absurd h (by simp [ExceptRel])
    | ok b => exact hfg a b h

theorem ExceptRel.pure_intro {α β : Type} {R : α → β → Prop} {a : α}
    {b : β} (h : R a b) :
    ExceptRel R (pure a : Except RenderErr α) (pure b) := h

theorem sepRowEvents_rel (aligns : List Alignment) :
    ∀ (w1 w2 : List Nat) (i : Nat), w1.length = w2.length →
      ExceptRel (fun _ _ => True) (sepRowEvents w1 aligns i)
        (sepRowEvents w2 aligns i) := by
  induction aligns with
  | nil =>
    intro w1 w2 i h
    exact trivial
  | cons a rest ih =>
    intro w1 w2 i hw
    rw [sepRowEvents, sepRowEvents]
    rcases h1 : w1.get? i with _ | v1 <;> rcases h2 : w2.get? i with _ | v2
    · exact rfl
    · rw [List.get?_eq_none] at h1
      obtain ⟨hlt, _⟩ := List.get?_eq_some.1 h2
      exact absurd hw (by omega)
    · rw [List.get?_eq_none] at h2
      obtain ⟨hlt, _⟩ := List.get?_eq_some.1 h1
      exact absurd hw (by omega)
    · simp only [pure_bind]
      refine ExceptRel.bind_mono (ih w1 w2 (i + 1) hw) ?_
      intro b1 b2 _
      exact ExceptRel.pure_intro trivial

mutual

theorem renderNodeB_cfg_rel (cfg1 cfg2 : RenderConfig)
    (parent : Option Node) (idx : Nat) (next : Option NodeKind) (n : Node) :
    ExceptRel (fun _ _ => True)
      (renderNodeB cfg1 parent idx next n)
      (renderNodeB cfg2 parent idx next n) := by
  rw [renderNodeB, renderNodeB]
  exact ExceptRel.map_mono
    (renderNodeCore_cfg_rel cfg1 cfg2 parent idx next n)
    (fun _ _ _ => trivial)
termination_by sizeOf n + 1
decreasing_by
  all_goals simp_wf
  all_goals omega

theorem renderNodeCore_cfg_rel (cfg1 cfg2 : RenderConfig)
    (parent : Option Node) (idx : Nat) (next : Option NodeKind) (n : Node) :
    ExceptRel (fun _ _ => True)
      (renderNodeCore cfg1 parent idx next n)
      (renderNodeCore cfg2 parent idx next n) := by
  rcases n with ⟨k, d, bp, ch⟩
  cases k
  all_goals rw [renderNodeCore, renderNodeCore]
  all_goals simp only [Node.kind, Node.data, Node.children, Node.blankPrev]
  case document =>
    exact ExceptRel.bind_mono
      (renderChildrenB_cfg_rel cfg1 cfg2 (.mk .document d bp ch) 0 ch)
      (fun _ _ _ => ExceptRel.pure_intro trivial)
  case text =>
    exact ExceptRel.bind_mono
      (renderChildrenB_cfg_rel cfg1 cfg2 (.mk .text d bp ch) 0 ch)
      (fun _ _ _ => ExceptRel.pure_intro trivial)
  case paragraph =>
    exact ExceptRel.bind_mono
      (renderChildrenB_cfg_rel cfg1 cfg2 (.mk .paragraph d bp ch) 0 ch)
      (fun _ _ _ => ExceptRel.pure_intro trivial)
  case textBlock =>
    exact ExceptRel.bind_mono
      (renderChildrenB_cfg_rel cfg1 cfg2 (.mk .textBlock d bp ch) 0 ch)
      (fun _ _ _ => ExceptRel.pure_intro trivial)
  case tableCell =>
    exact ExceptRel.bind_mono
      (renderChildrenB_cfg_rel cfg1 cfg2 (.mk .tableCell d bp ch) 0 ch)
      (fun _ _ _ => ExceptRel.pure_intro trivial)
  case heading =>
    exact renderHeadingB_cfg_rel cfg1 cfg2 d.level d.headingID ch
  case htmlBlock => exact ExceptRel.pure_intro trivial
  case codeBlock => exact ExceptRel.pure_intro trivial
  case thematicBreak =>
    exact ExceptRel.bind_mono
      (renderChildrenB_cfg_rel cfg1 cfg2 (.mk .thematicBreak d bp ch) 0 ch)
      (fun _ _ _ => ExceptRel.pure_intro trivial)
  case blockquote =>
    exact ExceptRel.bind_mono
      (renderChildrenB_cfg_rel cfg1 cfg2 (.mk .blockquote d bp ch) 0 ch)
      (fun _ _ _ => ExceptRel.pure_intro trivial)
  case list =>
    exact ExceptRel.bind_mono
      (renderChildrenB_cfg_rel cfg1 cfg2 (.mk .list d bp ch) 0 ch)
      (fun _ _ _ => ExceptRel.pure_intro trivial)
  case listItem =>
    rcases hm : listItemMarkerChars parent idx with _ | marker
    · exact rfl
    · exact ExceptRel.bind_mono
        (renderChildrenB_cfg_rel cfg1 cfg2 (.mk .listItem d bp ch) 0 ch)
        (fun _ _ _ => ExceptRel.pure_intro trivial)
  case table =>
    refine ExceptRel.bind_mono (R := TStRel)
      (pass1List_cfg_rel cfg1 cfg2 NodeKind.table ⟨0, [], []⟩ ⟨0, [], []⟩
        ⟨rfl, rfl, rfl⟩ ch) ?_
    intro s1 s2 hs
    refine ExceptRel.bind_mono (R := fun r1 r2 => r1.1 = r2.1) ?_
      (fun _ _ _ => ExceptRel.pure_intro trivial)
    rw [hs.1, hs.2.2]
    exact pass2List_cfg_rel cfg1 cfg2 s1.widths s2.widths s2.aligns
      NodeKind.table s2.colIndex hs.2.1 ch
  case tableRow => exact rfl
  case tableHeader => exact rfl
  case unknown => exact rfl
termination_by sizeOf n
decreasing_by
  all_goals simp_wf
  all_goals omega

theorem renderChildrenB_cfg_rel (cfg1 cfg2 : RenderConfig) (parent : Node)
    (idx : Nat) (l : List Node) :
    ExceptRel (fun _ _ => True)
      (renderChildrenB cfg1 parent idx l)
      (renderChildrenB cfg2 parent idx l) := by
  match l with
  | [] =>
    rw [renderChildrenB, renderChildrenB]
    exact ExceptRel.pure_intro trivial
  | [c] =>
    rw [renderChildrenB, renderChildrenB]
    exact renderNodeB_cfg_rel cfg1 cfg2 (some parent) idx Option.none c
  | c :: c2 :: rest =>
    rw [renderChildrenB, renderChildrenB]
    refine ExceptRel.bind_mono
      (renderNodeB_cfg_rel cfg1 cfg2 (some parent) idx (some c2.kind) c) ?_
    intro _ _ _
    exact ExceptRel.bind_mono
      (renderChildrenB_cfg_rel cfg1 cfg2 parent (idx + 1) (c2 :: rest))
      (fun _ _ _ => ExceptRel.pure_intro trivial)
termination_by sizeOf l
decreasing_by
  all_goals simp_wf
  all_goals omega

theorem renderHeadingB_cfg_rel (cfg1 cfg2 : RenderConfig) (level : Nat)
    (headingID : Option (List Nat)) (children : List Node) :
    ExceptRel (fun _ _ => True)
      (renderHeadingB cfg1 level headingID children)
      (renderHeadingB cfg2 level headingID children) := by
  rw [renderHeadingB, renderHeadingB]
  exact ExceptRel.bind_mono
    (renderChildrenB_cfg_rel cfg1 cfg2 (.mk .heading {} false children) 0
      children)
    (fun _ _ _ => ExceptRel.pure_intro trivial)
termination_by sizeOf children + 1
decreasing_by
  all_goals simp_wf
  all_goals omega

theorem pass1Node_cfg_rel (cfg1 cfg2 : RenderConfig)
    (parentKind : NodeKind) (st1 st2 : TState) (hst : TStRel st1 st2)
    (n : Node) :
    ExceptRel TStRel (pass1Node cfg1 parentKind st1 n)
      (pass1Node cfg2 parentKind st2 n) := by
  rcases n with ⟨k, d, bp, ch⟩
  cases k
  all_goals rw [pass1Node, pass1Node]
  all_goals simp only [Node.kind, Node.data, Node.children]
  case tableRow =>
    exact pass1List_cfg_rel cfg1 cfg2 NodeKind.tableRow
      { st1 with colIndex := 0 } { st2 with colIndex := 0 }
      ⟨rfl, hst.2.1, hst.2.2⟩ ch
  case tableHeader =>
    exact pass1List_cfg_rel cfg1 cfg2 NodeKind.tableHeader
      { st1 with colIndex := 0 } { st2 with colIndex := 0 }
      ⟨rfl, hst.2.1, hst.2.2⟩ ch
  case tableCell =>
    refine ExceptRel.bind_mono
      (renderChildrenB_cfg_rel cfg1 cfg2 (.mk .tableCell d bp ch) 0 ch) ?_
    intro a b _
    refine ExceptRel.pure_intro ⟨?_, ?_, ?_⟩
    · simp only [hst.1]
    · obtain ⟨hci, hwl, _⟩ := hst
      simp only [hci]
      by_cases hle : st2.widths.length ≤ st2.colIndex
      · rw [if_pos (by rw [hwl]; exact hle), if_pos hle]
        simp [hwl]
      · rw [if_neg (by rw [hwl]; exact hle), if_neg hle]
        split_ifs <;> simp [List.length_set, hwl]
    · obtain ⟨_, _, hal⟩ := hst
      rw [hal]
  all_goals exact rfl
termination_by sizeOf n
decreasing_by
  all_goals simp_wf
  all_goals omega

theorem pass1List_cfg_rel (cfg1 cfg2 : RenderConfig)
    (parentKind : NodeKind) (st1 st2 : TState) (hst : TStRel st1 st2)
    (l : List Node) :
    ExceptRel TStRel (pass1List cfg1 parentKind st1 l)
      (pass1List cfg2 parentKind st2 l) := by
  match l with
  | [] =>
    rw [pass1List, pass1List]
    exact ExceptRel.pure_intro hst
  | c :: rest =>
    rw [pass1List, pass1List]
    refine ExceptRel.bind_mono
      (pass1Node_cfg_rel cfg1 cfg2 parentKind st1 st2 hst c) ?_
    intro s1 s2 hs
    exact pass1List_cfg_rel cfg1 cfg2 parentKind s1 s2 hs rest
termination_by sizeOf l
decreasing_by
  all_goals simp_wf
  all_goals omega

theorem pass2Node_cfg_rel (cfg1 cfg2 : RenderConfig)
    (w1 w2 : List Nat) (aligns : List Alignment)
    (parentKind : NodeKind) (colIndex : Nat) (hw : w1.length = w2.length)
    (n : Node) :
    ExceptRel (fun r1 r2 => r1.1 = r2.1)
      (pass2Node cfg1 w1 aligns parentKind colIndex n)
      (pass2Node cfg2 w2 aligns parentKind colIndex n) := by
  rcases n with ⟨k, d, bp, ch⟩
  cases k
  all_goals rw [pass2Node, pass2Node]
  all_goals simp only [Node.kind, Node.data, Node.children]
  case tableRow =>
    refine ExceptRel.bind_mono
      (pass2List_cfg_rel cfg1 cfg2 w1 w2 aligns NodeKind.tableRow 0 hw
        ch) ?_
    intro r1 r2 hr
    exact ExceptRel.pure_intro hr
  case tableHeader =>
    refine ExceptRel.bind_mono
      (pass2List_cfg_rel cfg1 cfg2 w1 w2 aligns NodeKind.tableHeader 0 hw
        ch) ?_
    intro r1 r2 hr
    refine ExceptRel.bind_mono (sepRowEvents_rel aligns w1 w2 0 hw) ?_
    intro _ _ _
    exact ExceptRel.pure_intro hr
  case tableCell =>
    rcases h1 : w1.get? colIndex with _ | v1 <;>
      rcases h2 : w2.get? colIndex with _ | v2
    · exact rfl
    · rw [List.get?_eq_none] at h1
      obtain ⟨hlt, _⟩ := List.get?_eq_some.1 h2
      exact absurd hw (by omega)
    · rw [List.get?_eq_none] at h2
      obtain ⟨hlt, _⟩ := List.get?_eq_some.1 h1
      exact absurd hw (by omega)
    · simp only [pure_bind]
      rcases h3 : aligns.get? colIndex with _ | al
      · exact rfl
      · simp only [pure_bind]
        refine ExceptRel.bind_mono
          (renderChildrenB_cfg_rel cfg1 cfg2 (.mk .tableCell d bp ch) 0
            ch) ?_
        intro _ _ _
        exact ExceptRel.pure_intro rfl
  all_goals exact rfl
termination_by sizeOf n
decreasing_by
  all_goals simp_wf
  all_goals omega

theorem pass2List_cfg_rel (cfg1 cfg2 : RenderConfig)
    (w1 w2 : List Nat) (aligns : List Alignment)
    (parentKind : NodeKind) (colIndex : Nat) (hw : w1.length = w2.length)
    (l : List Node) :
    ExceptRel (fun r1 r2 => r1.1 = r2.1)
      (pass2List cfg1 w1 aligns parentKind colIndex l)
      (pass2List cfg2 w2 aligns parentKind colIndex l) := by
  match l with
  | [] =>
    rw [pass2List, pass2List]
    exact ExceptRel.pure_intro rfl
  | c :: rest =>
    rw [pass2List, pass2List]
    refine ExceptRel.bind_mono
      (pass2Node_cfg_rel cfg1 cfg2 w1 w2 aligns parentKind colIndex hw c) ?_
    intro r1 r2 hr
    rw [hr]
    refine ExceptRel.bind_mono
      (pass2List_cfg_rel cfg1 cfg2 w1 w2 aligns parentKind r2.1 hw rest) ?_
    intro s1 s2 hs
    exact ExceptRel.pure_intro hs
termination_by sizeOf l
decreasing_by
  all_goals simp_wf
  all_goals omega

end

/-- C5: a code-block formatter that fails internally never causes Render
to fail.  First conjunct: a code block node always renders successfully,
whatever formatters are registered.  Second conjunct: when the
registered formatter is the Go formatter and its internal `format.Source`
fails on the block's literal bytes, the node renders byte-for-byte as it
would with no formatter registered, so the original literal is emitted
unchanged and the walk continues.  Third conjunct: a whole-document
render is error-free exactly when it would be error-free with no
formatter registered. -/
theorem formatter_errors_never_propagate :
    (∀ (cfg : RenderConfig) (parent : Option Node) (idx : Nat)
        (next : Option NodeKind) (n : Node), n.kind = .codeBlock →
      ∃ evs, renderNodeB cfg parent idx next n = .ok evs) ∧
    (∀ (cfg : RenderConfig) (gofmt : List Nat → Option (List Nat))
        (parent : Option Node) (idx : Nat) (next : Option NodeKind)
        (n : Node), n.kind = .codeBlock →
      lookupFormatter cfg.formatters
          (match (if n.data.fenced then n.data.info else Option.none) with
            | some i => extractLang i
            | none => []) = some (goFormatWith gofmt) →
      gofmt n.data.lines.flatten = Option.none →
      n.data.lines.flatten.getLast? = some 10 →
      renderNodeB cfg parent idx next n =
        renderNodeB { cfg with formatters := [] } parent idx next n) ∧
    (∀ (cfg : RenderConfig) (doc : Node),
      (∃ out, Render cfg doc = .ok out) ↔
        (∃ out, Render { cfg with formatters := [] } doc = .ok out)) := by
  refine ⟨codeBlock_renders_ok, formatter_failure_emits_original, ?_⟩
  intro cfg doc
  have h := renderNodeB_cfg_rel cfg { cfg with formatters := [] }
    Option.none 0 Option.none doc
  unfold Render
  rcases h1 : renderNodeB cfg Option.none 0 Option.none doc with e | evs <;>
    rcases h2 : renderNodeB { cfg with formatters := [] }
      Option.none 0 Option.none doc with e2 | evs2 <;>
    rw [h1, h2] at h
  · simp [Except.map]
  · exact absurd h (by simp [ExceptRel])
  · exact absurd h (by simp [ExceptRel])
  · simp [Except.map]

/-- Witness for `formatter_errors_never_propagate`: the failing Go
formatter on a concrete fenced block renders identically to the
formatterless configuration. -/
theorem formatter_errors_never_propagate_witness :
    cbNode.kind = .codeBlock ∧
    lookupFormatter cfgGo.formatters
        (match (if cbNode.data.fenced then cbNode.data.info
                else Option.none) with
          | some i => extractLang i
          | none => []) = some (goFormatWith goFmtFail) ∧
    goFmtFail cbNode.data.lines.flatten = Option.none ∧
    cbNode.data.lines.flatten.getLast? = some 10 ∧
    renderNodeB cfgGo Option.none 0 Option.none cbNode =
      renderNodeB { cfgGo with formatters := [] } Option.none 0
        Option.none cbNode :=
  ⟨rfl, rfl, rfl, rfl,
    formatter_errors_never_propagate.2.1 cfgGo goFmtFail Option.none 0
      Option.none cbNode rfl rfl rfl rfl⟩

/-! ## C8 toolkit: newline-run arithmetic on byte strings -/

theorem leadNL_le_length (s : List Nat) : leadNL s ≤ s.length := by
  induction s with
  | nil => exact Nat.le_refl _
  | cons b rest ih =>
    by_cases hb : b = 10 <;> simp [leadNL, hb] <;> omega

theorem leadNL_append (a b : List Nat) :
    leadNL (a ++ b) =
      if leadNL a = a.length then a.length + leadNL b else leadNL a := by
  induction a with
  | nil => simp [leadNL]
  | cons x a2 ih =>
    by_cases hx : x = 10
    · subst hx
      have hstep : leadNL ((10 :: a2) ++ b) = leadNL (a2 ++ b) + 1 := by
        rw [List.cons_append]
        simp [leadNL]
      have hc : leadNL (10 :: a2) = leadNL a2 + 1 := by simp [leadNL]
      rw [hstep, ih, hc, List.length_cons]
      split_ifs <;> omega
    · have hstep : leadNL ((x :: a2) ++ b) = 0 := by
        rw [List.cons_append]
        simp [leadNL, hx]
      have hc : leadNL (x :: a2) = 0 := by simp [leadNL, hx]
      have hne : ¬ (0 = a2.length + 1) := by omega
      rw [hstep, hc, List.length_cons, if_neg hne]

theorem trailNL_append (a b : List Nat) :
    trailNL (a ++ b) =
      if trailNL b = b.length then trailNL a + b.length else trailNL b := by
  unfold trailNL
  rw [List.reverse_append, leadNL_append, List.length_reverse]
  by_cases h : leadNL b.reverse = b.length
  · rw [if_pos h, if_pos h]
    omega
  · rw [if_neg h, if_neg h]

theorem replicate_prefix_iff_leadNL (k : Nat) :
    ∀ s : List Nat, (List.replicate k 10 <+: s ↔ k ≤ leadNL s) := by
  induction k with
  | zero =>
    intro s
    simp [List.nil_prefix]
  | succ k2 ih =>
    intro s
    cases s with
    | nil =>
      simp only [List.replicate_succ, leadNL]
      constructor
      · intro h
        exact absurd (List.IsPrefix.length_le h) (by simp)
      · omega
    | cons b rest =>
      rw [List.replicate_succ, List.cons_prefix_cons]
      constructor
      · rintro ⟨rfl, hp⟩
        simp only [leadNL, if_pos rfl]
        exact Nat.succ_le_succ ((ih rest).1 hp)
      · intro h
        by_cases hb : b = 10
        · subst hb
          have hl : leadNL (10 :: rest) = leadNL rest + 1 := by
            simp [leadNL]
          rw [hl] at h
          exact ⟨rfl, (ih rest).2 (by omega)⟩
        · have hl : leadNL (b :: rest) = 0 := by simp [leadNL, hb]
          rw [hl] at h
          omega

theorem replicate_suffix_iff_trailNL (k : Nat) (s : List Nat) :
    List.replicate k 10 <:+ s ↔ k ≤ trailNL s := by
  rw [← List.reverse_prefix, List.reverse_replicate]
  exact replicate_prefix_iff_leadNL k s.reverse

theorem infix_append_split {α : Type} {x a b : List α}
    (h : x <:+: a ++ b) :
    x <:+: a ∨ x <:+: b ∨
      ∃ s t, x = s ++ t ∧ s ≠ [] ∧ t ≠ [] ∧ s <:+ a ∧ t <+: b := by
  obtain ⟨u, v, huv⟩ := h
  rw [List.append_assoc] at huv
  rcases List.append_eq_append_iff.1 huv with ⟨w, ha, hx2⟩ | ⟨w, hu, hb2⟩
  · -- a = u ++ w and x ++ v = w ++ b
    rcases List.append_eq_append_iff.1 hx2 with ⟨y, hw, hv⟩ | ⟨y, hx3, hb3⟩
    · -- w = x ++ y and v = y ++ b : x inside a
      left
      refine ⟨u, y, ?_⟩
      rw [ha, hw]
      simp [List.append_assoc]
    · -- x = w ++ y and b = y ++ v
      rcases w with _ | ⟨c, w2⟩
      · right; left
        refine ⟨[], v, ?_⟩
        simp only [List.nil_append] at hx3
        rw [List.nil_append, hx3, ← hb3]
      · rcases y with _ | ⟨e, y2⟩
        · left
          refine ⟨u, [], ?_⟩
          rw [List.append_nil] at hx3
          rw [ha, hx3, List.append_nil]
        · right; right
          exact ⟨c :: w2, e :: y2, hx3, by simp, by simp, ⟨u, ha.symm⟩,
            ⟨v, hb3.symm⟩⟩
  · -- u = a ++ w and b = w ++ (x ++ v) : x inside b
    right; left
    refine ⟨w, v, ?_⟩
    rw [hb2]
    simp [List.append_assoc]

theorem noTriple3_append {a b : List Nat} (ha : noTriple3 a)
    (hb : noTriple3 b) (hj : trailNL a + leadNL b ≤ 2) :
    noTriple3 (a ++ b) := by
  intro h
  rcases infix_append_split h with h1 | h1 | ⟨s, t, hx, hs, ht, hsa, htb⟩
  · exact ha h1
  · exact hb h1
  · have hsall : ∀ y ∈ s, y = 10 := by
      intro y hy
      have : y ∈ ([10, 10, 10] : List Nat) := by
        rw [hx]
        exact List.mem_append_left t hy

      simpa using this
    have htall : ∀ y ∈ t, y = 10 := by
      intro y hy
      have : y ∈ ([10, 10, 10] : List Nat) := by
        rw [hx]
        exact List.mem_append_right s hy
      simpa using this
    have hse : s = List.replicate s.length 10 := List.eq_replicate_of_mem hsall
    have hte : t = List.replicate t.length 10 := List.eq_replicate_of_mem htall
    have hlen : s.length + t.length = 3 := by
      have := congrArg List.length hx
      simpa using this.symm
    have h1 : s.length ≤ trailNL a :=
      (replicate_suffix_iff_trailNL s.length a).1 (hse ▸ hsa)
    have h2 : t.length ≤ leadNL b :=
      (replicate_prefix_iff_leadNL t.length b).1 (hte ▸ htb)
    have hs1 : 1 ≤ s.length := List.length_pos.2 hs
    have ht1 : 1 ≤ t.length := List.length_pos.2 ht
    omega

theorem noTriple3_of_noNL {s : List Nat} (h : noNL s) : noTriple3 s := by
  intro hinf
  have : (10 : Nat) ∈ s := hinf.subset (by simp)
  exact h 10 this rfl

theorem leadNL_eq_zero_of_noNL {s : List Nat} (h : noNL s) : leadNL s = 0 := by
  cases s with
  | nil => rfl
  | cons b rest =>
    have hb := h b (List.mem_cons_self b rest)
    simp [leadNL, hb]

theorem trailNL_eq_zero_of_noNL {s : List Nat} (h : noNL s) :
    trailNL s = 0 := by
  apply leadNL_eq_zero_of_noNL
  intro b hb
  exact h b (List.mem_reverse.1 hb)

theorem trailNL_le_two_of_noTriple3 {s : List Nat} (h : noTriple3 s) :
    trailNL s ≤ 2 := by
  by_contra hc
  apply h
  apply List.IsSuffix.isInfix
  have h3 : List.replicate 3 10 <:+ s :=
    (replicate_suffix_iff_trailNL 3 s).2 (by omega)
  have he : List.replicate 3 10 = [10, 10, 10] := rfl
  rw [he] at h3
  exact h3

theorem leadNL_le_two_of_noTriple3 {s : List Nat} (h : noTriple3 s) :
    leadNL s ≤ 2 := by
  by_contra hc
  apply h
  apply List.IsPrefix.isInfix
  have h3 : List.replicate 3 10 <+: s :=
    (replicate_prefix_iff_leadNL 3 s).2 (by omega)
  have he : List.replicate 3 10 = [10, 10, 10] := rfl
  rw [he] at h3
  exact h3

theorem noTriple3_infix {s t : List Nat} (hst : s <:+: t)
    (h : noTriple3 t) : noTriple3 s := fun hx => h (hx.trans hst)

theorem noTriple3_append_left {a b : List Nat} (h : noTriple3 (a ++ b)) :
    noTriple3 a := noTriple3_infix ⟨[], b, by simp⟩ h

theorem noTriple3_append_right {a b : List Nat} (h : noTriple3 (a ++ b)) :
    noTriple3 b := noTriple3_infix ⟨a, [], by simp⟩ h

theorem trailNL_le_one_of_next10 {past rest : List Nat}
    (h : noTriple3 (past ++ 10 :: rest)) : trailNL past ≤ 1 := by
  by_contra hc
  apply h
  have hsuf : List.replicate 2 10 <:+ past :=
    (replicate_suffix_iff_trailNL 2 past).2 (by omega)
  obtain ⟨u, hu⟩ := hsuf
  refine ⟨u, rest, ?_⟩
  rw [← hu]
  simp

theorem noTriple3_append_single10 {a : List Nat} (h : noTriple3 a)
    (ht : trailNL a ≤ 1) : noTriple3 (a ++ [10]) := by
  refine noTriple3_append h ?_ ?_
  · intro hinf
    have := hinf.length_le
    simp at this
  · simp [leadNL]
    omega

theorem noTriple3_append_noNL {a b : List Nat} (h : noTriple3 a)
    (hb : noNL b) : noTriple3 (a ++ b) :=
  noTriple3_append h (noTriple3_of_noNL hb)
    (by
      rw [leadNL_eq_zero_of_noNL hb]
      have := trailNL_le_two_of_noTriple3 h
      omega)

theorem getLast?_eq_ten_iff_trailNL {s : List Nat} :
    s.getLast? = some 10 ↔ 1 ≤ trailNL s := by
  rw [← List.head?_reverse]
  unfold trailNL
  cases hr : s.reverse with
  | nil => simp [leadNL]
  | cons b rest =>
    by_cases hb : b = 10 <;> simp [leadNL, hb] <;> omega

theorem suffix_ten_ten_iff_trailNL {s : List Nat} :
    [10, 10] <:+ s ↔ 2 ≤ trailNL s := by
  have he : List.replicate 2 10 = [10, 10] := rfl
  rw [← he]
  exact replicate_suffix_iff_trailNL 2 s

theorem trailNL_append_right_nz {a b : List Nat} (hb : b ≠ [])
    (h : trailNL b = 0) : trailNL (a ++ b) = 0 := by
  rw [trailNL_append]
  have : b.length ≠ 0 := fun hc => hb (List.length_eq_zero.1 hc)
  rw [if_neg (by omega)]
  exact h

theorem leadNL_append_left_nz {a b : List Nat} (ha : a ≠ [])
    (h : leadNL a = 0) : leadNL (a ++ b) = 0 := by
  rw [leadNL_append]
  have : a.length ≠ 0 := fun hc => ha (List.length_eq_zero.1 hc)
  rw [if_neg (by omega)]
  exact h

theorem leadNL_eq_zero_of_head {b : Nat} {s : List Nat} (h : b ≠ 10) :
    leadNL (b :: s) = 0 := by simp [leadNL, h]

theorem trailNL_append_ten (a : List Nat) :
    trailNL (a ++ [10]) = trailNL a + 1 := by
  have h1 : trailNL [10] = 1 := rfl
  rw [trailNL_append, h1]
  simp

/-! ## C8: well-formedness of documents and configurations

The corrected C8 invariant quantifies over documents whose code-block
and HTML-block literals do not themselves carry blank-line runs (the
counterexample above shows the invariant fails without this), and over
configurations whose width callback is positive on non-empty input and
whose formatters return newline-sane code. -/

theorem logicalBytes_append (a b : List REvent) :
    logicalBytes (a ++ b) = logicalBytes a ++ logicalBytes b := by
  induction a with
  | nil => simp [logicalBytes]
  | cons e rest ih =>
    cases e <;> simp [logicalBytes, ih]

theorem noNL_append {a b : List Nat} (ha : noNL a) (hb : noNL b) :
    noNL (a ++ b) := by
  intro x hx
  rcases List.mem_append.1 hx with h | h
  · exact ha x h
  · exact hb x h

theorem noNL_replicate (k c : Nat) (h : c ≠ 10) :
    noNL (List.replicate k c) := by
  intro x hx
  rw [List.eq_of_mem_replicate hx]
  exact h

theorem noNL_indentBytes (st : List IndentEntry) :
    noNL (indentBytes st) := by
  intro b hb
  rw [indentBytes, List.mem_flatten] at hb
  obtain ⟨l, hl, hbl⟩ := hb
  rw [List.mem_map] at hl
  obtain ⟨e, _, he⟩ := hl
  subst he
  cases e with
  | quote =>
    simp [entryBytes] at hbl
    omega
  | pad n =>
    rw [entryBytes] at hbl
    rw [List.eq_of_mem_replicate hbl]
    omega

theorem trimRightSpaces_subset {l : List Nat} :
    ∀ b ∈ trimRightSpaces l, b ∈ l := by
  intro b hb
  rw [trimRightSpaces, List.mem_reverse] at hb
  have := (List.dropWhile_sublist (l := l.reverse)
    (p := fun b => b = 32)).subset hb
  exact List.mem_reverse.1 this

theorem noNL_trimRightSpaces {l : List Nat} (h : noNL l) :
    noNL (trimRightSpaces l) :=
  fun b hb => h b (trimRightSpaces_subset b hb)

theorem noNL_cleanWithoutTrimGo (p : Nat) (l : List Nat) :
    noNL (cleanWithoutTrimGo p l) := by
  induction l generalizing p with
  | nil => intro b hb; simp [cleanWithoutTrimGo] at hb
  | cons b rest ih =>
    intro x hx
    rw [cleanWithoutTrimGo] at hx
    by_cases hq : (if b = 10 ∨ b = 13 ∨ b = 9 then 32 else b) ≠ 32 ∨ p ≠ 32
    · rw [if_pos hq] at hx
      rcases List.mem_cons.1 hx with h | h
      · subst h
        split
        · omega
        · rename_i hcond
          intro hc
          exact hcond (Or.inl hc)
      · exact ih _ x h
    · rw [if_neg hq] at hx
      exact ih p x hx

theorem noNL_cleanWithoutTrim (l : List Nat) : noNL (cleanWithoutTrim l) :=
  noNL_cleanWithoutTrimGo 0 l

theorem cleanWithoutTrim_ne_nil {l : List Nat} (h : l ≠ []) :
    cleanWithoutTrim l ≠ [] := by
  cases l with
  | nil => exact absurd rfl h
  | cons b rest =>
    rw [cleanWithoutTrim, cleanWithoutTrimGo]
    rw [if_pos (Or.inr (by omega))]
    exact List.cons_ne_nil _ _

theorem noNL_natDigitsGo (fuel : Nat) : ∀ n, noNL (natDigitsGo n fuel) := by
  induction fuel with
  | zero =>
    intro n b hb
    rw [natDigitsGo] at hb
    simp at hb
    omega
  | succ f ih =>
    intro n b hb
    rw [natDigitsGo] at hb
    split at hb
    · simp at hb
      omega
    · rcases List.mem_append.1 hb with h | h
      · exact ih _ b h
      · simp at h
        omega

theorem noNL_listItemMarkerOf {ordered : Bool} {start marker k : Nat}
    (h : marker ≠ 10) : noNL (listItemMarkerOf ordered start marker k) := by
  rw [listItemMarkerOf]
  split
  · refine noNL_append (noNL_natDigitsGo _ _) ?_
    intro b hb
    simp at hb
    rcases hb with hb | hb
    · subst hb; exact h
    · omega
  · intro b hb
    simp at hb
    rcases hb with hb | hb
    · subst hb; exact h
    · omega

theorem listItemMarkerOf_ne_nil (ordered : Bool) (start marker k : Nat) :
    listItemMarkerOf ordered start marker k ≠ [] := by
  rw [listItemMarkerOf]
  split
  · intro h
    have := congrArg List.length h
    simp at this
  · exact List.cons_ne_nil _ _

/-- All block separators are newline runs of length at most two. -/
theorem blockSeparator_cases (k : NodeKind) (hp bp : Bool) :
    blockSeparator k hp bp = [] ∨ blockSeparator k hp bp = [10] ∨
      blockSeparator k hp bp = [10, 10] := by
  cases k <;> cases hp <;> cases bp <;> simp [blockSeparator]

theorem sep_facts {s : List Nat}
    (h : s = [] ∨ s = [10] ∨ s = [10, 10]) :
    leadNL s = s.length ∧ trailNL s = s.length ∧ s.length ≤ 2 ∧
      noTriple3 s := by
  rcases h with h | h | h <;> subst h <;>
    refine ⟨by decide, by decide, by decide, ?_⟩ <;>
    intro hinf <;> exact absurd hinf.length_le (by decide)

theorem leadNL_append_of_ne {a b : List Nat} (h : leadNL a ≠ a.length) :
    leadNL (a ++ b) = leadNL a := by
  rw [leadNL_append, if_neg h]

theorem leadNL_append_full {a b : List Nat} (h : leadNL a = a.length) :
    leadNL (a ++ b) = a.length + leadNL b := by
  rw [leadNL_append, if_pos h]

theorem getLast?_snoc {α : Type} (l : List α) (a : α) :
    (l ++ [a]).getLast? = some a := by simp

theorem writeByte_eq (out : List Nat) (p : Bool) (st : List IndentEntry)
    (c : Nat) :
    writeByte ⟨out, p, st⟩ c =
      ⟨out ++
        (if p = true then
          (if c = 10 then trimRightSpaces (indentBytes st)
           else indentBytes st)
         else []) ++ [c],
       decide (c = 10), st⟩ := rfl

theorem writeByte_stack (w : WState) (c : Nat) :
    (writeByte w c).stack = w.stack := rfl

/-- One writer step preserves the history invariant, provided the
extended history is still free of blank-line runs. -/
theorem writeByte_WinvL {out : List Nat} {p : Bool} {st : List IndentEntry}
    {L : List Nat} {c : Nat}
    (hw : WinvL ⟨out, p, st⟩ L) (hT : noTriple3 (L ++ [c])) :
    WinvL (writeByte ⟨out, p, st⟩ c) (L ++ [c]) := by
  obtain ⟨h1, h2, h3, h4, h5⟩ := hw
  simp only [WState.prevNL, WState.outBytes] at h1 h2 h3 h4 h5
  rw [writeByte_eq, WinvL]
  set P := (if p = true then
      (if c = 10 then trimRightSpaces (indentBytes st)
       else indentBytes st)
     else []) with hP
  have hpre : noNL P := by
    rw [hP]
    split
    · split
      · exact noNL_trimRightSpaces (noNL_indentBytes st)
      · exact noNL_indentBytes st
    · intro b hb
      simp at hb
  have hout2 : (⟨out ++ P ++ [c], decide (c = 10), st⟩ : WState).outBytes
      = out ++ P ++ [c] := rfl
  have hprev2 : (⟨out ++ P ++ [c], decide (c = 10), st⟩ : WState).prevNL
      = decide (c = 10) := rfl
  rw [hout2, hprev2]
  have hlast : (L ++ [c]).getLast? = some c := getLast?_snoc L c
  have hmain : noTriple3 (out ++ P ++ [c]) ∧
      trailNL (out ++ P ++ [c]) ≤ trailNL (L ++ [c]) := by
    by_cases hc : c = 10
    · subst hc
      have hLtrail : trailNL (L ++ [10]) = trailNL L + 1 :=
        trailNL_append_ten L
      by_cases hPn : P = []
      · rw [hPn]
        simp only [List.append_nil]
        have htr1 : trailNL out ≤ 1 := by
          by_cases hp : p = true
          · have := trailNL_le_two_of_noTriple3 hT
            omega
          · have hL10 : ¬ (L.getLast? = some 10) := fun hx =>
              hp (h3.2 hx)
            have hL0 : trailNL L = 0 := by
              by_contra hz
              exact hL10 (getLast?_eq_ten_iff_trailNL.2 (by omega))
            omega
        refine ⟨noTriple3_append_single10 h1 htr1, ?_⟩
        rw [trailNL_append_ten, hLtrail]
        have hL10 : trailNL out ≤ trailNL L := h2
        omega
      · have hout3 : out ++ P ++ [10] = (out ++ P) ++ [10] := by
          simp [List.append_assoc]
        rw [hout3]
        have hOP : noTriple3 (out ++ P) := noTriple3_append_noNL h1 hpre
        have hOPtr : trailNL (out ++ P) = 0 :=
          trailNL_append_right_nz hPn (trailNL_eq_zero_of_noNL hpre)
        refine ⟨noTriple3_append_single10 hOP (by omega), ?_⟩
        rw [trailNL_append_ten, hOPtr, hLtrail]
        omega
    · have hpc : noNL (P ++ [c]) := by
        refine noNL_append hpre ?_
        intro b hb
        simp at hb
        subst hb
        exact hc
      have hsh : out ++ P ++ [c] = out ++ (P ++ [c]) := by
        simp [List.append_assoc]
      rw [hsh]
      refine ⟨noTriple3_append_noNL h1 hpc, ?_⟩
      rw [trailNL_append_right_nz (by simp) (trailNL_eq_zero_of_noNL hpc)]
      omega
  refine ⟨hmain.1, hmain.2, ?_, ?_, ?_⟩
  · rw [hlast]
    constructor
    · intro hd
      have := of_decide_eq_true hd
      subst this
      rfl
    · intro hs
      have : c = 10 := by
        injection hs
      subst this
      rfl
  · right
    rw [hlast]
    have : out ++ P ++ [c] = (out ++ P) ++ [c] := by
      simp [List.append_assoc]
    rw [this, getLast?_snoc]
  · have := List.length_append (out ++ P) [c]
    simp only [List.length_append, List.length_cons, List.length_nil]
    omega

/-- Writing a byte run preserves the invariant. -/
theorem writeBytes_WinvL (bs : List Nat) :
    ∀ (w : WState) (L : List Nat), WinvL w L → noTriple3 (L ++ bs) →
    WinvL (writeBytes w bs) (L ++ bs) ∧ (writeBytes w bs).stack = w.stack := by
  induction bs with
  | nil =>
    intro w L hw _
    exact ⟨by simpa [writeBytes] using hw, rfl⟩
  | cons c rest ih =>
    intro w L hw hT
    have hTc : noTriple3 (L ++ [c]) := by
      refine noTriple3_infix ⟨[], rest, ?_⟩ hT
      simp
    rcases w with ⟨out, p, st⟩
    have hstep := writeByte_WinvL hw hTc
    have hT2 : noTriple3 ((L ++ [c]) ++ rest) := by
      rw [List.append_assoc]
      simpa using hT
    have := ih (writeByte ⟨out, p, st⟩ c) (L ++ [c]) hstep hT2
    have hsh : (L ++ [c]) ++ rest = L ++ c :: rest := by simp
    rw [hsh] at this
    have hfold : writeBytes ⟨out, p, st⟩ (c :: rest) =
        writeBytes (writeByte ⟨out, p, st⟩ c) rest := rfl
    rw [hfold]
    exact ⟨this.1, by rw [this.2, writeByte_stack]⟩

/-- Running an event stream preserves the invariant against the extended
logical history. -/
theorem runEvents_WinvL (evs : List REvent) :
    ∀ (w : WState) (L : List Nat), WinvL w L →
    noTriple3 (L ++ logicalBytes evs) →
    WinvL (runEvents w evs) (L ++ logicalBytes evs) := by
  induction evs with
  | nil =>
    intro w L hw _
    simpa [runEvents, logicalBytes] using hw
  | cons e rest ih =>
    intro w L hw hT
    cases e with
    | emit bs =>
      have hTb : noTriple3 (L ++ bs) := by
        have hT' : noTriple3 ((L ++ bs) ++ logicalBytes rest) := by
          simpa [logicalBytes, List.append_assoc] using hT
        exact noTriple3_append_left hT'
      have hstep := (writeBytes_WinvL bs w L hw hTb).1
      have hT2 : noTriple3 ((L ++ bs) ++ logicalBytes rest) := by
        simpa [logicalBytes, List.append_assoc] using hT
      have := ih (writeBytes w bs) (L ++ bs) hstep hT2
      have hsh : (L ++ bs) ++ logicalBytes rest =
          L ++ logicalBytes (REvent.emit bs :: rest) := by
        simp [logicalBytes, List.append_assoc]
      rw [hsh] at this
      exact this
    | push entry =>
      have hw2 : WinvL { w with stack := w.stack ++ [entry] } L := by
        obtain ⟨h1, h2, h3, h4, h5⟩ := hw
        exact ⟨h1, h2, h3, h4, h5⟩
      have := ih _ L hw2 (by simpa [logicalBytes] using hT)
      simpa [runEvents, applyEvent, logicalBytes] using this
    | pop =>
      have hw2 : WinvL { w with stack := w.stack.dropLast } L := by
        obtain ⟨h1, h2, h3, h4, h5⟩ := hw
        exact ⟨h1, h2, h3, h4, h5⟩
      have := ih _ L hw2 (by simpa [logicalBytes] using hT)
      simpa [runEvents, applyEvent, logicalBytes] using this

/-- On an empty indent stack the writer is transparent: it forwards the
bytes unchanged. -/
theorem writeBytes_nilStack (bs : List Nat) :
    ∀ (out : List Nat) (p : Bool), ∃ p',
    writeBytes ⟨out, p, []⟩ bs = ⟨out ++ bs, p', []⟩ := by
  induction bs with
  | nil =>
    intro out p
    exact ⟨p, by simp [writeBytes]⟩
  | cons c rest ih =>
    intro out p
    have hb : writeByte ⟨out, p, []⟩ c = ⟨out ++ [c], decide (c = 10), []⟩ := by
      rw [writeByte_eq]
      congr 1
      split
      · split <;> simp [trimRightSpaces, indentBytes]
      · simp
    have hfold : writeBytes ⟨out, p, []⟩ (c :: rest) =
        writeBytes (writeByte ⟨out, p, []⟩ c) rest := rfl
    obtain ⟨p', hp'⟩ := ih (out ++ [c]) (decide (c = 10))
    refine ⟨p', ?_⟩
    rw [hfold, hb, hp']
    simp

/-- A pure emit stream through a fresh writer reproduces its logical
bytes: used for the scratch buffers of headings and table cells. -/
theorem runEvents_emitsOnly (evs : List REvent) :
    ∀ (out : List Nat) (p : Bool), EmitsOnly evs → ∃ p',
    runEvents ⟨out, p, []⟩ evs = ⟨out ++ logicalBytes evs, p', []⟩ := by
  induction evs with
  | nil =>
    intro out p _
    exact ⟨p, by simp [runEvents, logicalBytes]⟩
  | cons e rest ih =>
    intro out p he
    obtain ⟨bs, hbs⟩ := he e (List.mem_cons_self e rest)
    subst hbs
    have hrest : EmitsOnly rest := fun x hx =>
      he x (List.mem_cons_of_mem _ hx)
    have hfold : runEvents ⟨out, p, []⟩ (REvent.emit bs :: rest) =
        runEvents (writeBytes ⟨out, p, []⟩ bs) rest := rfl
    obtain ⟨p1, hp1⟩ := writeBytes_nilStack bs out p
    obtain ⟨p', hp'⟩ := ih (out ++ bs) p1 hrest
    refine ⟨p', ?_⟩
    rw [hfold, hp1, hp']
    simp [logicalBytes]

theorem leadNL_replicate_ten (k : Nat) :
    leadNL (List.replicate k 10) = k := by
  have h1 := (replicate_prefix_iff_leadNL k (List.replicate k 10)).1
    (List.prefix_refl _)
  have h2 := leadNL_le_length (List.replicate k 10)
  simp at h2
  omega

theorem trailNL_append_keep {a b : List Nat} (hb : b ≠ [])
    (hlb : leadNL b = 0) : trailNL (a ++ b) = trailNL b := by
  rw [trailNL_append]
  have hbl : 0 < b.length := List.length_pos.2 hb
  by_cases h : trailNL b = b.length
  · exfalso
    have hsuf : List.replicate b.length 10 <:+ b :=
      (replicate_suffix_iff_trailNL _ b).2 (by omega)
    have heq : b = List.replicate b.length 10 :=
      (List.IsSuffix.eq_of_length hsuf (by simp)).symm
    rw [heq, leadNL_replicate_ten] at hlb
    omega
  · rw [if_neg h]

theorem blockSeparator_text (hp bp : Bool) :
    blockSeparator NodeKind.text hp bp = [] := by
  cases hp <;> simp [blockSeparator]

theorem emitsOnly_nil : EmitsOnly [] := fun e he => absurd he (List.not_mem_nil e)

theorem clean_tail_facts {clean T : List Nat} (hne : clean ≠ [])
    (hnl : noNL clean) (ht3 : noTriple3 T) (hlt : trailNL T ≤ 1)
    (hld : leadNL T ≤ 2) :
    clean ++ T ≠ [] ∧ leadNL (clean ++ T) = 0 ∧
      trailNL (clean ++ T) ≤ 1 ∧ noTriple3 (clean ++ T) := by
  have h0 : trailNL clean = 0 := trailNL_eq_zero_of_noNL hnl
  refine ⟨by simp [hne], ?_, ?_, ?_⟩
  · exact leadNL_append_left_nz hne (leadNL_eq_zero_of_noNL hnl)
  · rw [trailNL_append]
    split_ifs with h <;> omega
  · refine noTriple3_append (noTriple3_of_noNL hnl) ht3 (by omega)

theorem renderText_stream (cfg : RenderConfig) (par : Option Node)
    (idx : Nat) (next : Option NodeKind) (n : Node) (hn : WfText n) :
    ∃ evs, renderNodeB cfg par idx next n = .ok evs ∧ EmitsOnly evs ∧
      logicalBytes evs ≠ [] ∧ leadNL (logicalBytes evs) = 0 ∧
      trailNL (logicalBytes evs) ≤ 1 ∧ noTriple3 (logicalBytes evs) ∧
      (NoBreak n → noNL (logicalBytes evs) ∧
        trailNL (logicalBytes evs) = 0) := by
  rcases n with ⟨k, d, bp, ch⟩
  obtain ⟨hk, hch, hcont⟩ := hn
  simp only [Node.kind] at hk
  simp only [Node.children] at hch
  simp only [Node.data] at hcont
  subst hk
  subst hch
  rcases d with ⟨content, soft, hard, lvl, hid, fen, inf, lns, clo, ord,
    strt, mrk, al⟩
  simp only [NodeData.content] at hcont
  rw [renderNodeB, renderNodeCore]
  simp only [Node.children, Node.data, Node.kind, Node.blankPrev,
    renderChildrenB, pure_bind, blockSeparator_text, Except.map]
  have hcne : cleanWithoutTrim content ≠ [] := cleanWithoutTrim_ne_nil hcont
  have hcnl : noNL (cleanWithoutTrim content) :=
    noNL_cleanWithoutTrim content
  have h0 : trailNL (cleanWithoutTrim content) = 0 :=
    trailNL_eq_zero_of_noNL hcnl
  rw [if_neg hcne]
  refine ⟨_, rfl, ?_⟩
  simp only [NoBreak, Node.data, NodeData.soft, NodeData.hard]
  cases soft <;> cases hard <;> cases hw : cfg.softWraps <;>
    simp only [if_true, if_false, Bool.false_eq_true, Bool.true_eq_false,
      ite_true, ite_false, List.append_nil, List.nil_append,
      logicalBytes, EmitsOnly]
  case false.false.false =>
    exact ⟨by intro e he; fin_cases he <;> exact ⟨_, rfl⟩, hcne,
      leadNL_eq_zero_of_noNL hcnl, by omega, noTriple3_of_noNL hcnl,
      fun _ => ⟨hcnl, h0⟩⟩
  case false.false.true =>
    exact ⟨by intro e he; fin_cases he <;> exact ⟨_, rfl⟩, hcne,
      leadNL_eq_zero_of_noNL hcnl, by omega, noTriple3_of_noNL hcnl,
      fun _ => ⟨hcnl, h0⟩⟩
  case false.true.false =>
    have hf := clean_tail_facts (T := [10]) hcne hcnl
      (by simp only [noTriple3]; decide) (by decide) (by decide)
    exact ⟨by intro e he; fin_cases he <;> exact ⟨_, rfl⟩,
      hf.1, hf.2.1, hf.2.2.1, hf.2.2.2, by simp⟩
  case false.true.true =>
    have hf := clean_tail_facts (T := [10]) hcne hcnl
      (by simp only [noTriple3]; decide) (by decide) (by decide)
    exact ⟨by intro e he; fin_cases he <;> exact ⟨_, rfl⟩,
      hf.1, hf.2.1, hf.2.2.1, hf.2.2.2, by simp⟩
  case true.false.false =>
    have hf := clean_tail_facts (T := [32]) hcne hcnl
      (by simp only [noTriple3]; decide) (by decide) (by decide)
    exact ⟨by intro e he; fin_cases he <;> exact ⟨_, rfl⟩,
      hf.1, hf.2.1, hf.2.2.1, hf.2.2.2, by simp⟩
  case true.false.true =>
    have hf := clean_tail_facts (T := [10]) hcne hcnl
      (by simp only [noTriple3]; decide) (by decide) (by decide)
    exact ⟨by intro e he; fin_cases he <;> exact ⟨_, rfl⟩,
      hf.1, hf.2.1, hf.2.2.1, hf.2.2.2, by simp⟩
  case true.true.false =>
    have hf := clean_tail_facts (T := [32, 32, 10]) hcne hcnl
      (by simp only [noTriple3]; decide) (by decide) (by decide)
    exact ⟨by intro e he; fin_cases he <;> exact ⟨_, rfl⟩,
      hf.1, hf.2.1, hf.2.2.1, hf.2.2.2, by simp⟩
  case true.true.true =>
    have hf := clean_tail_facts (T := [10, 32, 10]) hcne hcnl
      (by simp only [noTriple3]; decide) (by decide) (by decide)
    exact ⟨by intro e he; fin_cases he <;> exact ⟨_, rfl⟩,
      hf.1, hf.2.1, hf.2.2.1, hf.2.2.2, by simp⟩

theorem emitsOnly_append {a b : List REvent} (ha : EmitsOnly a)
    (hb : EmitsOnly b) : EmitsOnly (a ++ b) := by
  intro e he
  rcases List.mem_append.1 he with h | h
  · exact ha e h
  · exact hb e h

theorem lastNoBreak_cons_cons {c c2 : Node} {rest : List Node}
    (h : lastNoBreak (c :: c2 :: rest)) : lastNoBreak (c2 :: rest) := by
  rw [lastNoBreak] at h ⊢
  rwa [List.getLast?_cons_cons] at h

/-- The inline run of a paragraph, heading or table cell: well-formed
text children render to an emit-only event stream whose logical bytes
open on a non-newline byte, never run two newlines, and close without a
newline when the final text carries no break. -/
theorem renderChildrenText_stream (l : List Node) :
    ∀ (cfg : RenderConfig) (par : Node) (idx : Nat),
    (∀ c ∈ l, WfText c) →
    ∃ evs, renderChildrenB cfg par idx l = .ok evs ∧ EmitsOnly evs ∧
      (l ≠ [] → logicalBytes evs ≠ []) ∧
      leadNL (logicalBytes evs) = 0 ∧
      trailNL (logicalBytes evs) ≤ 1 ∧
      noTriple3 (logicalBytes evs) ∧
      ((∀ c ∈ l, NoBreak c) → noNL (logicalBytes evs)) ∧
      (lastNoBreak l → trailNL (logicalBytes evs) = 0) := by
  induction l with
  | nil =>
    intro cfg par idx _
    refine ⟨[], by rw [renderChildrenB]; rfl, emitsOnly_nil, ?_, ?_, ?_, ?_,
      ?_, ?_⟩
    · intro h; exact absurd rfl h
    · simp [logicalBytes, leadNL]
    · simp [logicalBytes, trailNL, leadNL]
    · intro h
      have := h.length_le
      simp [logicalBytes] at this
    · intro _ b hb
      simp [logicalBytes] at hb
    · intro _
      simp [logicalBytes, trailNL, leadNL]
  | cons c rest ih =>
    intro cfg par idx hwf
    have hc : WfText c := hwf c (List.mem_cons_self c rest)
    cases rest with
    | nil =>
      obtain ⟨evs, hok, hem, hne, hld, htr, h3, hnb⟩ :=
        renderText_stream cfg (some par) idx Option.none c hc
      refine ⟨evs, ?_, hem, fun _ => hne, hld, htr, h3, ?_, ?_⟩
      · rw [renderChildrenB]
        exact hok
      · intro h
        exact (hnb (h c (List.mem_cons_self c []))).1
      · intro h
        rw [lastNoBreak] at h
        simp only [List.getLast?_singleton] at h
        exact (hnb h).2
    | cons c2 rest2 =>
      have hwf2 : ∀ x ∈ c2 :: rest2, WfText x := fun x hx =>
        hwf x (List.mem_cons_of_mem c hx)
      obtain ⟨evs2, hok2, hem2, hne2, hld2, htr2, h32, hnl2, hlb2⟩ :=
        ih cfg par (idx + 1) hwf2
      obtain ⟨evs1, hok1, hem1, hne1, hld1, htr1, h31, hnb1⟩ :=
        renderText_stream cfg (some par) idx (some c2.kind) c hc
      have hL2ne : logicalBytes evs2 ≠ [] := hne2 (List.cons_ne_nil c2 rest2)
      refine ⟨evs1 ++ evs2, ?_, emitsOnly_append hem1 hem2, ?_, ?_, ?_, ?_,
        ?_, ?_⟩
      · rw [renderChildrenB, hok1, hok2]
        rfl
      · intro _
        rw [logicalBytes_append]
        simp [hne1]
      · rw [logicalBytes_append]
        exact leadNL_append_left_nz hne1 hld1
      · rw [logicalBytes_append, trailNL_append_keep hL2ne hld2]
        exact htr2
      · rw [logicalBytes_append]
        exact noTriple3_append h31 h32 (by omega)
      · intro h
        rw [logicalBytes_append]
        refine noNL_append ?_ ?_
        · exact (hnb1 (h c (List.mem_cons_self c _))).1
        · exact hnl2 (fun x hx => h x (List.mem_cons_of_mem c hx))
      · intro h
        rw [logicalBytes_append, trailNL_append_keep hL2ne hld2]
        exact hlb2 (lastNoBreak_cons_cons h)

theorem streamOK_of_noNL {l : List Nat} (hne : l ≠ []) (hnl : noNL l) :
    StreamOK l :=
  ⟨hne, leadNL_eq_zero_of_noNL hnl, trailNL_eq_zero_of_noNL hnl,
    noTriple3_of_noNL hnl⟩

/-- `renderHeading`: under a well-formed configuration and break-free
inline children the heading's event stream is a well-formed block
stream, for both hash and underline styles. -/
theorem renderHeadingB_stream (cfg : RenderConfig) (level : Nat)
    (headingID : Option (List Nat)) (children : List Node)
    (hcfg : ∀ s : List Nat, s ≠ [] → 0 < cfg.width s)
    (hch : children ≠ []) (hwf : ∀ c ∈ children, WfText c ∧ NoBreak c)
    (hlvl : 1 ≤ level)
    (hid : ∀ i, headingID = some i → noNL i) :
    ∃ evs, renderHeadingB cfg level headingID children = .ok evs ∧
      StreamOK (logicalBytes evs) := by
  obtain ⟨cevs, hok, hem, hne, _, _, _, hnl, _⟩ :=
    renderChildrenText_stream children cfg (.mk .heading {} false children)
      0 (fun c hc => (hwf c hc).1)
  have hLnl : noNL (logicalBytes cevs) :=
    hnl (fun c hc => (hwf c hc).2)
  have hLne : logicalBytes cevs ≠ [] := hne hch
  obtain ⟨p', heq⟩ := runEvents_emitsOnly cevs [] true hem
  rw [renderHeadingB, hok]
  have hpb : (Except.ok cevs : Except RenderErr (List REvent)) =
      pure cevs := rfl
  rw [hpb]
  simp only [pure_bind]
  simp only [initialW]
  rw [heq]
  simp only [WState.outBytes, List.nil_append]
  set hB := (match headingID with
    | some i => logicalBytes cevs ++ [32, 123, 35] ++ i ++ [125]
    | none => logicalBytes cevs) with hhB
  have hBnl : noNL hB := by
    rw [hhB]
    cases hID : headingID with
    | none => exact hLnl
    | some i =>
      refine noNL_append (noNL_append (noNL_append hLnl ?_) ?_) ?_
      · intro b hb; simp at hb; omega
      · exact hid i hID
      · intro b hb; simp at hb; omega
  have hBne : hB ≠ [] := by
    rw [hhB]
    cases headingID with
    | none => exact hLne
    | some i => simp
  cases hund : (cfg.underlineHeadings && decide (level ≤ 2)) with
  | false =>
    refine ⟨_, rfl, ?_⟩
    simp only [Bool.false_eq_true, if_false, ite_false, List.append_nil,
      List.nil_append, logicalBytes]
    refine streamOK_of_noNL ?_ ?_
    · simp
    · refine noNL_append (noNL_append (noNL_replicate level 35 (by omega))
        ?_) hBnl
      intro b hb; simp at hb; omega
  | true =>
    refine ⟨_, rfl, ?_⟩
    simp only [if_true, ite_true, List.nil_append, List.append_nil,
      logicalBytes]
    have hl2 : level ≤ 2 := by
      rw [Bool.and_eq_true] at hund
      exact of_decide_eq_true hund.2
    have hwpos : 0 < cfg.width hB := hcfg hB hBne
    have hrow : ∀ c : Nat, c ≠ 10 →
        StreamOK (hB ++ (10 :: List.replicate (cfg.width hB) c)) := by
      intro c hc
      have hrnl : noNL (List.replicate (cfg.width hB) c) :=
        noNL_replicate _ c hc
      have hrne : List.replicate (cfg.width hB) c ≠ [] := by
        intro hx
        have := congrArg List.length hx
        simp at this
        omega
      refine ⟨by simp [hBne], ?_, ?_, ?_⟩
      · exact leadNL_append_left_nz hBne (leadNL_eq_zero_of_noNL hBnl)
      · have h1 : trailNL (10 :: List.replicate (cfg.width hB) c) = 0 := by
          have : (10 :: List.replicate (cfg.width hB) c) =
              [10] ++ List.replicate (cfg.width hB) c := rfl
          rw [this]
          exact trailNL_append_right_nz hrne (trailNL_eq_zero_of_noNL hrnl)
        exact trailNL_append_right_nz (by simp) h1
      · have h1 : noTriple3 (10 :: List.replicate (cfg.width hB) c) := by
          have : (10 :: List.replicate (cfg.width hB) c) =
              [10] ++ List.replicate (cfg.width hB) c := rfl
          rw [this]
          refine noTriple3_append_noNL ?_ hrnl
          intro hx
          exact absurd hx.length_le (by decide)
        have h2 : leadNL (10 :: List.replicate (cfg.width hB) c) ≤ 2 := by
          have : leadNL (10 :: List.replicate (cfg.width hB) c) =
              leadNL (List.replicate (cfg.width hB) c) + 1 := by
            simp [leadNL]
          rw [this, leadNL_eq_zero_of_noNL hrnl]
          omega
        refine noTriple3_append (noTriple3_of_noNL hBnl) h1 ?_
        rw [trailNL_eq_zero_of_noNL hBnl]
        omega
    interval_cases level
    · exact hrow 61 (by omega)
    · exact hrow 45 (by omega)

theorem trailNL_append_zero {a b : List Nat} (ha : trailNL a = 0)
    (hb : trailNL b = 0) : trailNL (a ++ b) = 0 := by
  rw [trailNL_append]
  split_ifs with h
  · omega
  · exact hb

theorem noNL_single {c : Nat} (h : c ≠ 10) : noNL [c] := by
  intro b hb
  simp at hb
  subst hb
  exact h

theorem noNL_pair {c d : Nat} (hc : c ≠ 10) (hd : d ≠ 10) :
    noNL [c, d] := by
  intro b hb
  simp at hb
  rcases hb with hb | hb <;> subst hb <;> assumption

theorem noNL_renderTableCellBytes {align : Alignment} {width : Nat}
    {wfn : List Nat → Nat} {cell : List Nat} (h : noNL cell) :
    noNL (renderTableCellBytes align width wfn cell) := by
  have h32 : ∀ k : Nat, noNL (List.replicate k 32) :=
    fun k => noNL_replicate k 32 (by omega)
  have hp : noNL [124, 32] := noNL_pair (by omega) (by omega)
  cases align with
  | center =>
    have he : renderTableCellBytes Alignment.center width wfn cell =
        [124, 32] ++ (List.replicate ((width - wfn cell) / 2) 32 ++ cell ++
          List.replicate ((width - wfn cell) - (width - wfn cell) / 2) 32 ++
          [32]) := rfl
    rw [he]
    exact noNL_append hp (noNL_append (noNL_append (noNL_append (h32 _) h)
      (h32 _)) (noNL_single (by omega)))
  | right =>
    have he : renderTableCellBytes Alignment.right width wfn cell =
        [124, 32] ++ (List.replicate (width - wfn cell) 32 ++ cell ++
          [32]) := rfl
    rw [he]
    exact noNL_append hp (noNL_append (noNL_append (h32 _) h)
      (noNL_single (by omega)))
  | left =>
    have he : renderTableCellBytes Alignment.left width wfn cell =
        [124, 32] ++ (cell ++
          List.replicate (1 + (width - wfn cell)) 32) := rfl
    rw [he]
    exact noNL_append hp (noNL_append h (h32 _))
  | none =>
    have he : renderTableCellBytes Alignment.none width wfn cell =
        [124, 32] ++ (cell ++
          List.replicate (1 + (width - wfn cell)) 32) := rfl
    rw [he]
    exact noNL_append hp (noNL_append h (h32 _))

theorem noNL_sepColBytes (a : Alignment) (w : Nat) :
    noNL (sepColBytes a w) := by
  rw [sepColBytes]
  have h45 : noNL (List.replicate w 45) := noNL_replicate w 45 (by omega)
  refine noNL_append (noNL_append (noNL_append (noNL_single (by omega))
    (noNL_single ?_)) h45) (noNL_single ?_)
  · split <;> omega
  · split <;> omega

theorem sepRowEvents_spec (aligns : List Alignment) :
    ∀ (ws : List Nat) (i : Nat), i + aligns.length ≤ ws.length →
    ∃ evs, sepRowEvents ws aligns i = .ok evs ∧
      noNL (logicalBytes evs) := by
  induction aligns with
  | nil =>
    intro ws i _
    refine ⟨[], by rw [sepRowEvents]; rfl, ?_⟩
    intro b hb
    simp [logicalBytes] at hb
  | cons a rest ih =>
    intro ws i hlen
    have hi : i < ws.length := by
      simp only [List.length_cons] at hlen
      omega
    obtain ⟨evs2, hok2, hnl2⟩ := ih ws (i + 1)
      (by simp only [List.length_cons] at hlen; omega)
    rw [sepRowEvents]
    rcases hget : ws.get? i with _ | w
    · exact absurd (List.get?_eq_none.1 hget) (by omega)
    · simp only [pure_bind]
      rw [hok2]
      have hpb : (Except.ok evs2 : Except RenderErr (List REvent)) =
          pure evs2 := rfl
      rw [hpb]
      simp only [pure_bind]
      refine ⟨_, rfl, ?_⟩
      rw [logicalBytes_append]
      refine noNL_append ?_ hnl2
      simp only [logicalBytes, List.append_nil]
      exact noNL_sepColBytes a w

theorem pass1Node_cell (cfg : RenderConfig) (pk : NodeKind) (ci : Nat)
    (ws : List Nat) (als : List Alignment) (n : Node) (h : WfCell n)
    (hci : ci ≤ ws.length) :
    ∃ ws' als', pass1Node cfg pk ⟨ci, ws, als⟩ n = .ok ⟨ci + 1, ws', als'⟩ ∧
      ws'.length = max ws.length (ci + 1) ∧
      als'.length = als.length +
        (if pk = NodeKind.tableHeader then 1 else 0) := by
  rcases n with ⟨k, d, bp, ch⟩
  obtain ⟨hk, hcells⟩ := h
  simp only [Node.kind] at hk
  subst hk
  simp only [Node.children] at hcells
  obtain ⟨evs, hok, -, -, -, -, -, -, -⟩ :=
    renderChildrenText_stream ch cfg (.mk .tableCell d bp ch) 0
      (fun c hc => (hcells c hc).1)
  rw [pass1Node]
  simp only [Node.kind, Node.children, Node.data]
  rw [hok]
  have hpb : (Except.ok evs : Except RenderErr (List REvent)) =
      pure evs := rfl
  rw [hpb]
  simp only [pure_bind]
  refine ⟨_, _, rfl, ?_, ?_⟩
  · by_cases hlen : ws.length ≤ ci
    · have heq : ws.length = ci := le_antisymm hlen hci
      rw [if_pos hlen]
      simp
      omega
    · rw [if_neg hlen]
      split_ifs <;> simp <;> omega
  · split_ifs <;> simp

theorem pass1List_cells (cells : List Node) :
    ∀ (cfg : RenderConfig) (pk : NodeKind) (ci : Nat) (ws : List Nat)
      (als : List Alignment), (∀ c ∈ cells, WfCell c) → ci ≤ ws.length →
    ∃ ws' als', pass1List cfg pk ⟨ci, ws, als⟩ cells =
        .ok ⟨ci + cells.length, ws', als'⟩ ∧
      ws'.length = max ws.length (ci + cells.length) ∧
      als'.length = als.length +
        (if pk = NodeKind.tableHeader then cells.length else 0) := by
  induction cells with
  | nil =>
    intro cfg pk ci ws als _ hci
    refine ⟨ws, als, ?_, ?_, ?_⟩
    · rw [pass1List]
      simp only [List.length_nil, Nat.add_zero]
      rfl
    · simp only [List.length_nil, Nat.add_zero]
      omega
    · simp only [List.length_nil]
      split_ifs <;> omega
  | cons c cs ih =>
    intro cfg pk ci ws als hwf hci
    obtain ⟨ws1, als1, hok1, hl1, ha1⟩ :=
      pass1Node_cell cfg pk ci ws als c (hwf c (List.mem_cons_self c cs)) hci
    obtain ⟨ws2, als2, hok2, hl2, ha2⟩ := ih cfg pk (ci + 1) ws1 als1
      (fun x hx => hwf x (List.mem_cons_of_mem c hx)) (by omega)
    rw [pass1List, hok1]
    have hpb : (Except.ok (⟨ci + 1, ws1, als1⟩ : TState) :
        Except RenderErr TState) = pure ⟨ci + 1, ws1, als1⟩ := rfl
    rw [hpb]
    simp only [pure_bind]
    refine ⟨ws2, als2, ?_, ?_, ?_⟩
    · simp only [List.length_cons]
      have hidx : ci + (cs.length + 1) = ci + 1 + cs.length := by omega
      rw [hidx]
      exact hok2
    · simp only [List.length_cons]
      omega
    · simp only [List.length_cons]
      split_ifs at ha1 ha2 ⊢ <;> omega

theorem pass1Node_header (cfg : RenderConfig) (ci : Nat) (ws : List Nat)
    (als : List Alignment) (m : Nat) (n : Node)
    (h : WfRow NodeKind.tableHeader m n) :
    ∃ ws' als', pass1Node cfg NodeKind.table ⟨ci, ws, als⟩ n =
        .ok ⟨m, ws', als'⟩ ∧
      ws'.length = max ws.length m ∧ als'.length = als.length + m := by
  rcases n with ⟨k, d, bp, ch⟩
  obtain ⟨hk, hm, hcells⟩ := h
  simp only [Node.kind] at hk
  subst hk
  simp only [Node.children] at hm hcells
  obtain ⟨ws', als', hok, hl, ha⟩ :=
    pass1List_cells ch cfg NodeKind.tableHeader 0 ws als hcells
      (by omega)
  have h0 : 0 + ch.length = m := by omega
  rw [h0] at hok hl
  rw [pass1Node]
  simp only [Node.kind, Node.children]
  rw [hok]
  refine ⟨ws', als', rfl, by omega, ?_⟩
  simp at ha
  omega

theorem pass1Node_row (cfg : RenderConfig) (ci : Nat) (ws : List Nat)
    (als : List Alignment) (m : Nat) (n : Node)
    (h : WfRow NodeKind.tableRow m n) :
    ∃ ws' als', pass1Node cfg NodeKind.table ⟨ci, ws, als⟩ n =
        .ok ⟨m, ws', als'⟩ ∧
      ws'.length = max ws.length m ∧ als'.length = als.length := by
  rcases n with ⟨k, d, bp, ch⟩
  obtain ⟨hk, hm, hcells⟩ := h
  simp only [Node.kind] at hk
  subst hk
  simp only [Node.children] at hm hcells
  obtain ⟨ws', als', hok, hl, ha⟩ :=
    pass1List_cells ch cfg NodeKind.tableRow 0 ws als hcells (by omega)
  have h0 : 0 + ch.length = m := by omega
  rw [h0] at hok hl
  rw [pass1Node]
  simp only [Node.kind, Node.children]
  rw [hok]
  refine ⟨ws', als', rfl, by omega, ?_⟩
  simp at ha
  omega

theorem pass1List_rows (rows : List Node) :
    ∀ (cfg : RenderConfig) (ws : List Nat) (als : List Alignment) (m : Nat),
    (∀ r ∈ rows, WfRow NodeKind.tableRow m r) → ws.length = m →
    ∃ ws' als', pass1List cfg NodeKind.table ⟨m, ws, als⟩ rows =
        .ok ⟨m, ws', als'⟩ ∧
      ws'.length = m ∧ als'.length = als.length := by
  induction rows with
  | nil =>
    intro cfg ws als m _ hws
    exact ⟨ws, als, by rw [pass1List]; rfl, hws, rfl⟩
  | cons r rs ih =>
    intro cfg ws als m hwf hws
    obtain ⟨ws1, als1, hok1, hl1, ha1⟩ :=
      pass1Node_row cfg m ws als m r (hwf r (List.mem_cons_self r rs))
    obtain ⟨ws2, als2, hok2, hl2, ha2⟩ := ih cfg ws1 als1 m
      (fun x hx => hwf x (List.mem_cons_of_mem r hx)) (by omega)
    rw [pass1List, hok1]
    have hpb : (Except.ok (⟨m, ws1, als1⟩ : TState) :
        Except RenderErr TState) = pure ⟨m, ws1, als1⟩ := rfl
    rw [hpb]
    simp only [pure_bind]
    rw [hok2]
    exact ⟨ws2, als2, rfl, hl2, by omega⟩

theorem leadNL_nil : leadNL [] = 0 := rfl

theorem trailNL_nil : trailNL [] = 0 := rfl

theorem pass2Node_cell (cfg : RenderConfig) (ws : List Nat)
    (als : List Alignment) (pk : NodeKind) (ci : Nat) (n : Node)
    (h : WfCell n) (hw : ci < ws.length) (ha : ci < als.length) :
    ∃ bytes, pass2Node cfg ws als pk ci n =
      .ok (ci + 1, [.emit bytes]) ∧ noNL bytes := by
  rcases n with ⟨k, d, bp, ch⟩
  obtain ⟨hk, hcells⟩ := h
  simp only [Node.kind] at hk
  subst hk
  simp only [Node.children] at hcells
  obtain ⟨evs, hok, hem, -, -, -, -, hnl, -⟩ :=
    renderChildrenText_stream ch cfg (.mk .tableCell d bp ch) 0
      (fun c hc => (hcells c hc).1)
  have hLnl : noNL (logicalBytes evs) := hnl (fun c hc => (hcells c hc).2)
  obtain ⟨p', heq⟩ := runEvents_emitsOnly evs [] true hem
  rw [pass2Node]
  simp only [Node.kind, Node.children, Node.data]
  rcases hget : ws.get? ci with _ | w
  · exact absurd (List.get?_eq_none.1 hget) (by omega)
  rcases hget2 : als.get? ci with _ | a0
  · exact absurd (List.get?_eq_none.1 hget2) (by omega)
  simp only [pure_bind]
  rw [hok]
  have hpb : (Except.ok evs : Except RenderErr (List REvent)) =
      pure evs := rfl
  rw [hpb]
  simp only [pure_bind, initialW]
  rw [heq]
  simp only [WState.outBytes, List.nil_append]
  exact ⟨_, rfl, noNL_renderTableCellBytes hLnl⟩

theorem pass2List_cells (cells : List Node) :
    ∀ (cfg : RenderConfig) (ws : List Nat) (als : List Alignment)
      (pk : NodeKind) (ci : Nat),
    (∀ c ∈ cells, WfCell c) → ci + cells.length ≤ ws.length →
    ci + cells.length ≤ als.length →
    ∃ evs, pass2List cfg ws als pk ci cells =
        .ok (ci + cells.length, evs) ∧ noNL (logicalBytes evs) := by
  induction cells with
  | nil =>
    intro cfg ws als pk ci _ _ _
    refine ⟨[], ?_, ?_⟩
    · rw [pass2List]
      simp only [List.length_nil, Nat.add_zero]
      rfl
    · intro b hb
      simp [logicalBytes] at hb
  | cons c cs ih =>
    intro cfg ws als pk ci hwf hws hals
    simp only [List.length_cons] at hws hals
    obtain ⟨bytes, hok1, hnl1⟩ := pass2Node_cell cfg ws als pk ci c
      (hwf c (List.mem_cons_self c cs)) (by omega) (by omega)
    obtain ⟨evs2, hok2, hnl2⟩ := ih cfg ws als pk (ci + 1)
      (fun x hx => hwf x (List.mem_cons_of_mem c hx)) (by omega) (by omega)
    rw [pass2List, hok1]
    have hpb : (Except.ok ((ci + 1, [REvent.emit bytes]) :
        Nat × List REvent) : Except RenderErr (Nat × List REvent)) =
      pure (ci + 1, [REvent.emit bytes]) := rfl
    rw [hpb]
    simp only [pure_bind]
    rw [hok2]
    have hpb2 : (Except.ok ((ci + 1 + cs.length, evs2) :
        Nat × List REvent) : Except RenderErr (Nat × List REvent)) =
      pure (ci + 1 + cs.length, evs2) := rfl
    rw [hpb2]
    simp only [pure_bind]
    refine ⟨[REvent.emit bytes] ++ evs2, ?_, ?_⟩
    · simp only [List.length_cons]
      have hidx : ci + (cs.length + 1) = ci + 1 + cs.length := by omega
      rw [hidx]
      rfl
    · rw [logicalBytes_append]
      refine noNL_append ?_ hnl2
      simp only [logicalBytes, List.append_nil]
      exact hnl1

theorem pass2Node_rowStream (cfg : RenderConfig) (ws : List Nat)
    (als : List Alignment) (ci m : Nat) (n : Node)
    (h : WfRow NodeKind.tableRow m n) (hwm : m ≤ ws.length)
    (ham : m ≤ als.length) :
    ∃ r rest, pass2Node cfg ws als NodeKind.table ci n = .ok r ∧
      logicalBytes r.2 = 10 :: rest ∧ noNL rest ∧ rest ≠ [] := by
  rcases n with ⟨k, d, bp, ch⟩
  obtain ⟨hk, hm, hcells⟩ := h
  simp only [Node.kind] at hk
  subst hk
  simp only [Node.children] at hm hcells
  obtain ⟨evs, hok, hnl⟩ := pass2List_cells ch cfg ws als
    NodeKind.tableRow 0 hcells (by omega) (by omega)
  rw [pass2Node]
  simp only [Node.kind, Node.children]
  rw [hok]
  have hpb : (Except.ok ((0 + ch.length, evs) : Nat × List REvent) :
      Except RenderErr (Nat × List REvent)) = pure (0 + ch.length, evs) :=
    rfl
  rw [hpb]
  simp only [pure_bind]
  refine ⟨_, logicalBytes evs ++ [124], rfl, ?_, ?_, by simp⟩
  · rw [logicalBytes_append, logicalBytes_append]
    simp [logicalBytes]
  · exact noNL_append hnl (noNL_single (by omega))

theorem pass2Node_headerStream (cfg : RenderConfig) (ws : List Nat)
    (als : List Alignment) (ci m : Nat) (n : Node)
    (h : WfRow NodeKind.tableHeader m n) (hwm : m ≤ ws.length)
    (ham : m ≤ als.length) (haw : als.length ≤ ws.length) :
    ∃ r, pass2Node cfg ws als NodeKind.table ci n = .ok r ∧
      logicalBytes r.2 ≠ [] ∧ leadNL (logicalBytes r.2) = 0 ∧
      trailNL (logicalBytes r.2) = 0 ∧ noTriple3 (logicalBytes r.2) := by
  rcases n with ⟨k, d, bp, ch⟩
  obtain ⟨hk, hm, hcells⟩ := h
  simp only [Node.kind] at hk
  subst hk
  simp only [Node.children] at hm hcells
  obtain ⟨evs, hok, hnl⟩ := pass2List_cells ch cfg ws als
    NodeKind.tableHeader 0 hcells (by omega) (by omega)
  obtain ⟨sevs, hoks, hnls⟩ := sepRowEvents_spec als ws 0 (by omega)
  rw [pass2Node]
  simp only [Node.kind, Node.children]
  rw [hok]
  have hpb : (Except.ok ((0 + ch.length, evs) : Nat × List REvent) :
      Except RenderErr (Nat × List REvent)) = pure (0 + ch.length, evs) :=
    rfl
  rw [hpb]
  simp only [pure_bind]
  rw [hoks]
  have hpb2 : (Except.ok sevs : Except RenderErr (List REvent)) =
      pure sevs := rfl
  rw [hpb2]
  simp only [pure_bind]
  refine ⟨_, rfl, ?_⟩
  simp only [logicalBytes_append, logicalBytes, List.append_nil]
  set L := logicalBytes evs with hL
  set S := logicalBytes sevs with hS
  have hA : trailNL (L ++ [124, 10]) = 1 := by
    rw [trailNL_append_keep (by simp) (by decide)]
    decide
  have hAlead : leadNL (L ++ [124, 10]) = 0 := by
    have hz : leadNL L = 0 := leadNL_eq_zero_of_noNL hnl
    rw [leadNL_append, hz]
    have h124 : leadNL [124, 10] = 0 := by decide
    split_ifs with h
    · rw [h124]
      omega
    · rfl
  have hA3 : noTriple3 (L ++ [124, 10]) := by
    refine noTriple3_append (noTriple3_of_noNL hnl)
      (by simp only [noTriple3]; decide) ?_
    rw [trailNL_eq_zero_of_noNL hnl]
    decide
  have hA2tr : trailNL (L ++ [124, 10] ++ S) ≤ 1 := by
    cases hSc : S with
    | nil => rw [List.append_nil]; omega
    | cons y ys =>
      rw [trailNL_append_right_nz (by simp)
        (trailNL_eq_zero_of_noNL (hSc ▸ hnls))]
      omega
  have hA2 : noTriple3 (L ++ [124, 10] ++ S) :=
    noTriple3_append_noNL hA3 hnls
  refine ⟨by simp, ?_, ?_, ?_⟩
  · refine leadNL_append_left_nz ?_ ?_
    · simp
    · refine leadNL_append_left_nz (by simp) hAlead
  · exact trailNL_append_right_nz (by simp)
      (trailNL_eq_zero_of_noNL (noNL_single (by omega)))
  · refine noTriple3_append_noNL hA2 (noNL_single (by omega))

theorem pass2List_rowsStream (rows : List Node) :
    ∀ (cfg : RenderConfig) (ws : List Nat) (als : List Alignment)
      (ci m : Nat),
    (∀ r ∈ rows, WfRow NodeKind.tableRow m r) → m ≤ ws.length →
    m ≤ als.length →
    ∃ r, pass2List cfg ws als NodeKind.table ci rows = .ok r ∧
      noTriple3 (logicalBytes r.2) ∧ trailNL (logicalBytes r.2) = 0 ∧
      leadNL (logicalBytes r.2) ≤ 1 := by
  induction rows with
  | nil =>
    intro cfg ws als ci m _ _ _
    refine ⟨(ci, []), by rw [pass2List]; rfl, ?_, trailNL_nil, ?_⟩
    · intro hinf
      rw [logicalBytes] at hinf
      exact absurd hinf.length_le (by decide)
    · rw [logicalBytes, leadNL_nil]
      omega
  | cons r rs ih =>
    intro cfg ws als ci m hwf hwm ham
    obtain ⟨r1, rest, hok1, hl1, hnl1, hne1⟩ :=
      pass2Node_rowStream cfg ws als ci m r
        (hwf r (List.mem_cons_self r rs)) hwm ham
    obtain ⟨r2, hok2, h32, htr2, hld2⟩ := ih cfg ws als r1.1 m
      (fun x hx => hwf x (List.mem_cons_of_mem r hx)) hwm ham
    rw [pass2List, hok1]
    have hpb : (Except.ok r1 : Except RenderErr (Nat × List REvent)) =
      pure r1 := rfl
    rw [hpb]
    simp only [pure_bind]
    rw [hok2]
    have hpb2 : (Except.ok r2 : Except RenderErr (Nat × List REvent)) =
      pure r2 := rfl
    rw [hpb2]
    simp only [pure_bind]
    refine ⟨(r2.1, r1.2 ++ r2.2), rfl, ?_, ?_, ?_⟩
    · rw [logicalBytes_append, hl1]
      have h1 : noTriple3 (10 :: rest) := by
        have : (10 :: rest) = [10] ++ rest := rfl
        rw [this]
        refine noTriple3_append_noNL ?_ hnl1
        intro hinf
        exact absurd hinf.length_le (by decide)
      have htr1 : trailNL (10 :: rest) = 0 := by
        have : (10 :: rest) = [10] ++ rest := rfl
        rw [this]
        exact trailNL_append_right_nz hne1 (trailNL_eq_zero_of_noNL hnl1)
      refine noTriple3_append h1 h32 ?_
      rw [htr1]
      omega
    · rw [logicalBytes_append, hl1]
      refine trailNL_append_zero ?_ htr2
      have : (10 :: rest) = [10] ++ rest := rfl
      rw [this]
      exact trailNL_append_right_nz hne1 (trailNL_eq_zero_of_noNL hnl1)
    · rw [logicalBytes_append, hl1]
      have hlen : rest.length ≥ 1 := by
        cases rest with
        | nil => exact absurd rfl hne1
        | cons a b => simp
      have hld1 : leadNL (10 :: rest) = 1 := by
        have h2 : leadNL (10 :: rest) = leadNL rest + 1 := by
          simp [leadNL]
        rw [h2, leadNL_eq_zero_of_noNL hnl1]
      rw [leadNL_append_of_ne (by rw [hld1, List.length_cons]; omega), hld1]

/-- `renderTable`: a well-formed table renders to a well-formed block
stream (the two passes succeed and emit pipe-framed lines separated by
single newlines). -/
theorem renderTable_stream (cfg : RenderConfig) (parent : Option Node)
    (idx : Nat) (next : Option NodeKind) (d : NodeData) (bp : Bool)
    (hd : Node) (rows : List Node) (m : Nat)
    (hh : WfRow NodeKind.tableHeader m hd)
    (hr : ∀ r ∈ rows, WfRow NodeKind.tableRow m r) :
    ∃ evs, renderNodeCore cfg parent idx next
        (.mk .table d bp (hd :: rows)) = .ok evs ∧
      StreamOK (logicalBytes evs) := by
  obtain ⟨ws1, als1, hok1, hl1, ha1⟩ := pass1Node_header cfg 0 [] [] m hd hh
  have hws1 : ws1.length = m := by simp at hl1; omega
  have hals1 : als1.length = m := by simp at ha1; omega
  obtain ⟨ws2, als2, hok2, hl2, ha2⟩ :=
    pass1List_rows rows cfg ws1 als1 m hr hws1
  have hals2 : als2.length = m := by omega
  obtain ⟨r1, hok3, hne3, hld3, htr3, h33⟩ :=
    pass2Node_headerStream cfg ws2 als2 m m hd hh (by omega) (by omega)
      (by omega)
  obtain ⟨r2, hok4, h34, htr4, hld4⟩ :=
    pass2List_rowsStream rows cfg ws2 als2 r1.1 m hr (by omega) (by omega)
  rw [renderNodeCore]
  simp only [Node.kind, Node.children]
  rw [pass1List, hok1]
  have hpb1 : (Except.ok (⟨m, ws1, als1⟩ : TState) :
      Except RenderErr TState) = pure ⟨m, ws1, als1⟩ := rfl
  rw [hpb1]
  simp only [pure_bind]
  rw [hok2]
  have hpb2 : (Except.ok (⟨m, ws2, als2⟩ : TState) :
      Except RenderErr TState) = pure ⟨m, ws2, als2⟩ := rfl
  rw [hpb2]
  simp only [pure_bind]
  rw [pass2List, hok3]
  have hpb3 : (Except.ok r1 : Except RenderErr (Nat × List REvent)) =
      pure r1 := rfl
  rw [hpb3]
  simp only [pure_bind]
  rw [hok4]
  have hpb4 : (Except.ok r2 : Except RenderErr (Nat × List REvent)) =
      pure r2 := rfl
  rw [hpb4]
  simp only [pure_bind]
  refine ⟨_, rfl, ?_, ?_, ?_, ?_⟩
  · rw [logicalBytes_append]
    simp [hne3]
  · rw [logicalBytes_append]
    exact leadNL_append_left_nz hne3 hld3
  · rw [logicalBytes_append]
    exact trailNL_append_zero htr3 htr4
  · rw [logicalBytes_append]
    refine noTriple3_append h33 h34 ?_
    rw [htr3]
    omega

theorem renderParagraph_stream (cfg : RenderConfig) (parent : Option Node)
    (idx : Nat) (next : Option NodeKind) (d : NodeData) (bp : Bool)
    (ch : List Node) (hch : ch ≠ []) (hwf : ∀ c ∈ ch, WfText c)
    (hlast : lastNoBreak ch) :
    ∃ evs, renderNodeCore cfg parent idx next (.mk .paragraph d bp ch) =
        .ok evs ∧ StreamOK (logicalBytes evs) := by
  obtain ⟨evs, hok, -, hne, hld, -, h3, -, hlb⟩ :=
    renderChildrenText_stream ch cfg (.mk .paragraph d bp ch) 0 hwf
  rw [renderNodeCore]
  simp only [Node.kind, Node.children]
  rw [hok]
  have hpb : (Except.ok evs : Except RenderErr (List REvent)) =
      pure evs := rfl
  rw [hpb]
  simp only [pure_bind]
  exact ⟨evs, rfl, hne hch, hld, hlb hlast, h3⟩

theorem renderTextBlock_stream (cfg : RenderConfig) (parent : Option Node)
    (idx : Nat) (next : Option NodeKind) (d : NodeData) (bp : Bool)
    (ch : List Node) (hch : ch ≠ []) (hwf : ∀ c ∈ ch, WfText c)
    (hlast : lastNoBreak ch) :
    ∃ evs, renderNodeCore cfg parent idx next (.mk .textBlock d bp ch) =
        .ok evs ∧ StreamOK (logicalBytes evs) := by
  obtain ⟨evs, hok, -, hne, hld, -, h3, -, hlb⟩ :=
    renderChildrenText_stream ch cfg (.mk .textBlock d bp ch) 0 hwf
  rw [renderNodeCore]
  simp only [Node.kind, Node.children]
  rw [hok]
  have hpb : (Except.ok evs : Except RenderErr (List REvent)) =
      pure evs := rfl
  rw [hpb]
  simp only [pure_bind]
  exact ⟨evs, rfl, hne hch, hld, hlb hlast, h3⟩

theorem codeStream_ok {infoB code2 : List Nat} (hinfo : noNL infoB)
    (h3 : noTriple3 (10 :: code2)) :
    StreamOK ([96, 96, 96] ++ infoB ++ [10] ++ code2 ++ [96, 96, 96]) := by
  have hA : noNL ([96, 96, 96] ++ infoB) := by
    refine noNL_append ?_ hinfo
    intro b hb
    simp at hb
    omega
  have hB2 : noTriple3 ([96, 96, 96] ++ infoB ++ [10]) :=
    noTriple3_append_single10 (noTriple3_of_noNL hA)
      (by rw [trailNL_eq_zero_of_noNL hA]; omega)
  have hB2tr : trailNL ([96, 96, 96] ++ infoB ++ [10]) = 1 := by
    rw [trailNL_append_ten, trailNL_eq_zero_of_noNL hA]
  have hc3 : noTriple3 code2 := by
    have : (10 :: code2) = [10] ++ code2 := rfl
    exact noTriple3_append_right (this ▸ h3)
  have hcl : leadNL code2 ≤ 1 := by
    have h1 := leadNL_le_two_of_noTriple3 h3
    have h2 : leadNL (10 :: code2) = leadNL code2 + 1 := by
      simp [leadNL]
    omega
  have hB3 : noTriple3 ([96, 96, 96] ++ infoB ++ [10] ++ code2) := by
    refine noTriple3_append hB2 hc3 ?_
    omega
  refine ⟨by simp, ?_, ?_, ?_⟩
  · refine leadNL_append_left_nz (by simp) ?_
    refine leadNL_append_left_nz (by simp) ?_
    refine leadNL_append_left_nz (by simp) ?_
    exact leadNL_eq_zero_of_noNL hA
  · exact trailNL_append_right_nz (by simp)
      (trailNL_eq_zero_of_noNL (by intro b hb; simp at hb; omega))
  · exact noTriple3_append_noNL hB3 (by intro b hb; simp at hb; omega)

theorem codeStream_ok2 {code2 : List Nat} (h3 : noTriple3 (10 :: code2)) :
    StreamOK ([96, 96, 96] ++ [10] ++ code2 ++ [96, 96, 96]) := by
  have h := codeStream_ok
    (show noNL [] from fun b hb => absurd hb (List.not_mem_nil b)) h3
  simpa using h

theorem renderCodeBlock_stream (cfg : RenderConfig) (parent : Option Node)
    (idx : Nat) (next : Option NodeKind) (d : NodeData) (bp : Bool)
    (ch : List Node)
    (hfmt : ∀ lang f, lookupFormatter cfg.formatters lang = some f →
      ∀ code, noTriple3 (10 :: ensureTrailingNL (f code)))
    (h3 : noTriple3 (10 :: d.lines.flatten))
    (hinfo : ∀ i, d.info = some i → noNL i) :
    ∃ evs, renderNodeCore cfg parent idx next (.mk .codeBlock d bp ch) =
        .ok evs ∧ StreamOK (logicalBytes evs) := by
  rw [renderNodeCore]
  simp only [Node.kind, Node.children, Node.data]
  rcases hf : d.fenced with _ | _
  · simp only [Bool.false_eq_true, if_false, ite_false]
    rcases hlf : lookupFormatter cfg.formatters [] with _ | f
    · refine ⟨_, rfl, ?_⟩
      simp only [logicalBytes_append, logicalBytes, List.append_nil]
      simpa using codeStream_ok2 h3
    · refine ⟨_, rfl, ?_⟩
      simp only [logicalBytes_append, logicalBytes, List.append_nil]
      simpa using codeStream_ok2 (hfmt [] f hlf d.lines.flatten)
  · simp only [if_true, ite_true]
    rcases hi : d.info with _ | i
    · simp only []
      rcases hlf : lookupFormatter cfg.formatters [] with _ | f
      · refine ⟨_, rfl, ?_⟩
        simp only [logicalBytes_append, logicalBytes, List.append_nil]
        simpa using codeStream_ok2 h3
      · refine ⟨_, rfl, ?_⟩
        simp only [logicalBytes_append, logicalBytes, List.append_nil]
        simpa using codeStream_ok2 (hfmt [] f hlf d.lines.flatten)
    · simp only []
      have hIn : noNL i := hinfo i hi
      rcases hlf : lookupFormatter cfg.formatters (extractLang i) with _ | f
      · refine ⟨_, rfl, ?_⟩
        simp only [logicalBytes_append, logicalBytes, List.append_nil]
        simpa using codeStream_ok hIn h3
      · refine ⟨_, rfl, ?_⟩
        simp only [logicalBytes_append, logicalBytes, List.append_nil]
        simpa using codeStream_ok hIn
          (hfmt (extractLang i) f hlf d.lines.flatten)

theorem renderThematicBreak_stream (cfg : RenderConfig)
    (parent : Option Node) (idx : Nat) (next : Option NodeKind)
    (d : NodeData) (bp : Bool) :
    ∃ evs, renderNodeCore cfg parent idx next
        (.mk .thematicBreak d bp []) = .ok evs ∧
      StreamOK (logicalBytes evs) := by
  rw [renderNodeCore]
  simp only [Node.kind, Node.children, renderChildrenB, pure_bind]
  refine ⟨_, rfl, ?_⟩
  simp only [logicalBytes, List.append_nil]
  refine ⟨by simp, by decide, by decide, ?_⟩
  exact noTriple3_of_noNL (by intro b hb; simp at hb; omega)

theorem renderHtml_stream (cfg : RenderConfig) (parent : Option Node)
    (idx : Nat) (next : Option NodeKind) (d : NodeData) (bp : Bool)
    (ch : List Node)
    (h1 : htmlBlockBytes d.lines d.closure ≠ [])
    (h2 : leadNL (htmlBlockBytes d.lines d.closure) = 0)
    (h3 : trailNL (htmlBlockBytes d.lines d.closure) = 0)
    (h4 : noTriple3 (htmlBlockBytes d.lines d.closure)) :
    ∃ evs, renderNodeCore cfg parent idx next
        (.mk .htmlBlock d bp ch) = .ok evs ∧
      StreamOK (logicalBytes evs) := by
  rw [renderNodeCore]
  simp only [Node.kind, Node.children, Node.data]
  refine ⟨_, rfl, ?_⟩
  simp only [logicalBytes, List.append_nil]
  exact ⟨h1, h2, h3, h4⟩

theorem blockSeparator_hasPrev_false (k : NodeKind) (bp : Bool) :
    blockSeparator k false bp = [] := rfl

theorem WfItem_kind {c : Node} (h : WfItem c) :
    c.kind = NodeKind.listItem := by
  cases h
  rfl

theorem blockSeparator_listItem_cases (hp bp : Bool) :
    blockSeparator NodeKind.listItem hp bp = [] ∨
      blockSeparator NodeKind.listItem hp bp = [10] := by
  cases hp <;> cases bp <;> simp [blockSeparator]

theorem wfBlockquote_inv {d : NodeData} {bp : Bool} {ch : List Node}
    (h : WfBlock (.mk .blockquote d bp ch)) :
    ch ≠ [] ∧ ∀ c ∈ ch, WfBlock c := by
  cases h with
  | blockquote _ _ _ h1 h2 => exact ⟨h1, h2⟩

theorem wfList_inv {d : NodeData} {bp : Bool} {ch : List Node}
    (h : WfBlock (.mk .list d bp ch)) :
    ch ≠ [] ∧ d.marker ≠ 10 ∧ ∀ c ∈ ch, WfItem c := by
  cases h with
  | list _ _ _ h1 h2 h3 => exact ⟨h1, h2, h3⟩

theorem wfItem_inv {d : NodeData} {bp : Bool} {ch : List Node}
    (h : WfItem (.mk .listItem d bp ch)) :
    ch ≠ [] ∧ ∀ c ∈ ch, WfBlock c := by
  cases h with
  | item _ _ _ h1 h2 => exact ⟨h1, h2⟩

mutual

theorem renderNodeCore_stream (cfg : RenderConfig) (parent : Option Node)
    (idx : Nat) (next : Option NodeKind) (n : Node) :
    WfCfg cfg → WfBlock n →
    ∃ evs, renderNodeCore cfg parent idx next n = .ok evs ∧
      StreamOK (logicalBytes evs) := by
  rcases n with ⟨k, d, bp, ch⟩
  cases k
  all_goals intro hcfg hn
  case document => cases hn
  case text => cases hn
  case listItem => cases hn
  case tableRow => cases hn
  case tableHeader => cases hn
  case tableCell => cases hn
  case unknown => cases hn
  case paragraph =>
    cases hn with
    | paragraph _ _ _ h1 h2 h3 =>
      exact renderParagraph_stream cfg parent idx next d bp ch h1 h2 h3
  case textBlock =>
    cases hn with
    | textBlock _ _ _ h1 h2 h3 =>
      exact renderTextBlock_stream cfg parent idx next d bp ch h1 h2 h3
  case heading =>
    cases hn with
    | heading _ _ _ h1 h2 h3 h4 =>
      rw [renderNodeCore]
      simp only [Node.kind, Node.children, Node.data]
      exact renderHeadingB_stream cfg d.level d.headingID ch hcfg.1 h1 h2
        h3 h4
  case codeBlock =>
    cases hn with
    | codeBlock _ _ _ h1 h2 =>
      exact renderCodeBlock_stream cfg parent idx next d bp ch hcfg.2 h1 h2
  case thematicBreak =>
    cases hn with
    | thematicBreak _ _ =>
      exact renderThematicBreak_stream cfg parent idx next d bp
  case blockquote =>
    obtain ⟨h1, h2⟩ := wfBlockquote_inv hn
    obtain ⟨evs, hok, htr, h3, hld, hld0, hne⟩ :=
      renderChildrenBlocks_stream cfg (.mk .blockquote d bp ch) 0 ch hcfg h2
    rw [renderNodeCore]
    simp only [Node.kind, Node.children]
    rw [hok]
    have hpb : (Except.ok evs : Except RenderErr (List REvent)) =
        pure evs := rfl
    rw [hpb]
    simp only [pure_bind]
    refine ⟨_, rfl, ?_⟩
    have hLne : logicalBytes evs ≠ [] := hne h1
    have hL0 : leadNL (logicalBytes evs) = 0 := hld0 rfl
    have himm : logicalBytes (blockquoteImmediate parent idx) = [] ∨
        logicalBytes (blockquoteImmediate parent idx) = [62, 32] := by
      rcases parent with _ | q
      · left
        rfl
      · have he : blockquoteImmediate (some q) idx =
            if q.kind = NodeKind.listItem ∧ idx = 0 then
              [REvent.emit [62, 32]] else [] := rfl
        by_cases hq : q.kind = NodeKind.listItem ∧ idx = 0
        · right
          rw [he, if_pos hq]
          rfl
        · left
          rw [he, if_neg hq]
          rfl
    have hLB : logicalBytes ((REvent.push IndentEntry.quote ::
        blockquoteImmediate parent idx) ++ evs ++ [REvent.pop]) =
        logicalBytes (blockquoteImmediate parent idx) ++
          logicalBytes evs := by
      rw [logicalBytes_append, logicalBytes_append]
      simp [logicalBytes]
    rw [hLB]
    rcases himm with himm | himm <;> rw [himm]
    · rw [List.nil_append]
      exact ⟨hLne, hL0, htr, h3⟩
    · have hIn : noNL [62, 32] := noNL_pair (by omega) (by omega)
      refine ⟨by simp, ?_, ?_, ?_⟩
      · exact leadNL_append_left_nz (by simp) (leadNL_eq_zero_of_noNL hIn)
      · exact trailNL_append_right_nz hLne htr
      · refine noTriple3_append (noTriple3_of_noNL hIn) h3 ?_
        rw [trailNL_eq_zero_of_noNL hIn, hL0]
        omega
  case list =>
    obtain ⟨h1, h2, h3⟩ := wfList_inv hn
    obtain ⟨evs, hok, htr, h33, hld, hld0, hne⟩ :=
      renderChildrenItems_stream cfg (.mk .list d bp ch) 0 ch hcfg rfl h2 h3
    rw [renderNodeCore]
    simp only [Node.kind, Node.children]
    rw [hok]
    have hpb : (Except.ok evs : Except RenderErr (List REvent)) =
        pure evs := rfl
    rw [hpb]
    simp only [pure_bind]
    exact ⟨evs, rfl, hne h1, hld0 rfl, htr, h33⟩
  case htmlBlock =>
    cases hn with
    | htmlBlock _ _ _ h1 h2 h3 h4 =>
      exact renderHtml_stream cfg parent idx next d bp ch h1 h2 h3 h4
  case table =>
    cases hn with
    | table _ _ hd rows m hh hr =>
      exact renderTable_stream cfg parent idx next d bp hd rows m hh hr
termination_by sizeOf n
decreasing_by
  all_goals simp_wf
  all_goals first
    | exact Node.sizeOf_children_lt _
    | exact Node.sizeOf_children_succ_lt _
    | omega

theorem renderItemCore_stream (cfg : RenderConfig) (p : Node) (idx : Nat)
    (next : Option NodeKind) (n : Node) :
    WfCfg cfg → p.kind = NodeKind.list → p.data.marker ≠ 10 →
    WfItem n →
    ∃ evs, renderNodeCore cfg (some p) idx next n = .ok evs ∧
      logicalBytes evs ≠ [] ∧ leadNL (logicalBytes evs) = 0 ∧
      noTriple3 (logicalBytes evs) ∧
      trailNL (logicalBytes evs) ≤ 1 ∧
      (next ≠ some NodeKind.listItem → trailNL (logicalBytes evs) = 0) := by
  rcases n with ⟨k, d, bp, ch⟩
  cases k
  all_goals intro hcfg hp hmk hn
  case document => cases hn
  case text => cases hn
  case paragraph => cases hn
  case textBlock => cases hn
  case heading => cases hn
  case codeBlock => cases hn
  case thematicBreak => cases hn
  case blockquote => cases hn
  case list => cases hn
  case htmlBlock => cases hn
  case table => cases hn
  case tableRow => cases hn
  case tableHeader => cases hn
  case tableCell => cases hn
  case unknown => cases hn
  case listItem =>
    obtain ⟨h1, h2⟩ := wfItem_inv hn
    rcases p with ⟨pk, pd, pbp, pch⟩
    simp only [Node.kind] at hp
    subst hp
    simp only [Node.data] at hmk
    obtain ⟨body, hok, htr, h3, hld, hld0, hne⟩ :=
      renderChildrenBlocks_stream cfg (.mk .listItem d bp ch) 0 ch hcfg h2
    have hLne : logicalBytes body ≠ [] := hne h1
    have hL0 : leadNL (logicalBytes body) = 0 := hld0 rfl
    rw [renderNodeCore]
    simp only [Node.kind, Node.children]
    have hmrk : listItemMarkerChars (some (.mk .list pd pbp pch)) idx =
        some (listItemMarkerOf pd.ordered pd.start pd.marker idx) := rfl
    rw [hmrk]
    set M := listItemMarkerOf pd.ordered pd.start pd.marker idx with hMdef
    have hM : noNL M := noNL_listItemMarkerOf hmk
    have hMne : M ≠ [] := listItemMarkerOf_ne_nil _ _ _ _
    rw [hok]
    have hpb : (Except.ok body : Except RenderErr (List REvent)) =
        pure body := rfl
    rw [hpb]
    simp only [pure_bind]
    have hAne : M ++ logicalBytes body ≠ [] := by simp [hMne]
    have hAld : leadNL (M ++ logicalBytes body) = 0 :=
      leadNL_append_left_nz hMne (leadNL_eq_zero_of_noNL hM)
    have hAtr : trailNL (M ++ logicalBytes body) = 0 :=
      trailNL_append_right_nz hLne htr
    have hA3 : noTriple3 (M ++ logicalBytes body) := by
      refine noTriple3_append (noTriple3_of_noNL hM) h3 ?_
      rw [trailNL_eq_zero_of_noNL hM, hL0]
      omega
    by_cases hnx : next = some NodeKind.listItem
    · rw [if_pos hnx]
      refine ⟨_, rfl, ?_⟩
      have hLB : logicalBytes ((REvent.emit M ::
          REvent.push (IndentEntry.pad M.length) :: body) ++
          [REvent.emit [10]] ++ [REvent.pop]) =
          M ++ logicalBytes body ++ [10] := by
        rw [logicalBytes_append, logicalBytes_append]
        simp [logicalBytes]
      rw [hLB]
      refine ⟨by simp [hMne], ?_, ?_, ?_, ?_⟩
      · exact leadNL_append_left_nz hAne hAld
      · exact noTriple3_append_single10 hA3 (by omega)
      · rw [trailNL_append_ten, hAtr]
      · intro h
        exact absurd hnx h
    · rw [if_neg hnx]
      refine ⟨_, rfl, ?_⟩
      have hLB : logicalBytes ((REvent.emit M ::
          REvent.push (IndentEntry.pad M.length) :: body) ++
          [] ++ [REvent.pop]) = M ++ logicalBytes body := by
        rw [logicalBytes_append, logicalBytes_append]
        simp [logicalBytes]
      rw [hLB]
      exact ⟨hAne, hAld, hA3, by omega, fun _ => hAtr⟩
termination_by sizeOf n
decreasing_by
  all_goals simp_wf
  all_goals first
    | exact Node.sizeOf_children_lt _
    | exact Node.sizeOf_children_succ_lt _
    | omega

theorem renderChildrenBlocks_stream (cfg : RenderConfig) (par : Node)
    (idx : Nat) (l : List Node) :
    WfCfg cfg → (∀ c ∈ l, WfBlock c) →
    ∃ evs, renderChildrenB cfg par idx l = .ok evs ∧
      trailNL (logicalBytes evs) = 0 ∧ noTriple3 (logicalBytes evs) ∧
      leadNL (logicalBytes evs) ≤ 2 ∧
      (idx = 0 → leadNL (logicalBytes evs) = 0) ∧
      (l ≠ [] → logicalBytes evs ≠ []) := by
  match l with
  | [] =>
    intro hcfg hl
    refine ⟨[], by rw [renderChildrenB]; rfl, ?_, ?_, ?_, ?_, ?_⟩
    · exact trailNL_nil
    · intro hinf
      rw [logicalBytes] at hinf
      exact absurd hinf.length_le (by decide)
    · rw [logicalBytes, leadNL_nil]
      omega
    · intro _
      rw [logicalBytes, leadNL_nil]
    · intro h
      exact absurd rfl h
  | [c] =>
    intro hcfg hl
    obtain ⟨cevs, hokc, hc⟩ := renderNodeCore_stream cfg (some par) idx
      Option.none c hcfg (hl c (List.mem_cons_self c []))
    obtain ⟨hcne, hcld, hctr, hc3⟩ := hc
    have hB : renderNodeB cfg (some par) idx Option.none c =
        .ok (.emit (blockSeparator c.kind (idx ≠ 0) c.blankPrev) ::
          cevs) := by
      rw [renderNodeB, hokc]
      rfl
    refine ⟨_, by rw [renderChildrenB]; exact hB, ?_, ?_, ?_, ?_, ?_⟩
    all_goals
      have hsepc := blockSeparator_cases c.kind (idx ≠ 0) c.blankPrev
    all_goals
      obtain ⟨hsl, hst, hs2, hs3⟩ := sep_facts hsepc
    all_goals
      rw [show logicalBytes (REvent.emit (blockSeparator c.kind
        (idx ≠ 0) c.blankPrev) :: cevs) =
        blockSeparator c.kind (idx ≠ 0) c.blankPrev ++
          logicalBytes cevs from by simp [logicalBytes]]
    · exact trailNL_append_right_nz hcne hctr
    · refine noTriple3_append hs3 hc3 ?_
      rw [hcld]
      omega
    · rw [leadNL_append_full hsl, hcld]
      omega
    · intro h0
      subst h0
      rw [show blockSeparator c.kind ((0 : Nat) ≠ 0) c.blankPrev = []
        from blockSeparator_hasPrev_false c.kind c.blankPrev]
      rw [List.nil_append]
      exact hcld
    · intro _
      simp [hcne]
  | c :: c2 :: rest =>
    intro hcfg hl
    obtain ⟨cevs, hokc, hc⟩ := renderNodeCore_stream cfg (some par) idx
      (some c2.kind) c hcfg (hl c (List.mem_cons_self c (c2 :: rest)))
    obtain ⟨hcne, hcld, hctr, hc3⟩ := hc
    obtain ⟨evs2, hok2, htr2, h32, hld2, -, hne2⟩ :=
      renderChildrenBlocks_stream cfg par (idx + 1) (c2 :: rest) hcfg
        (fun x hx => hl x (List.mem_cons_of_mem c hx))
    have hL2ne : logicalBytes evs2 ≠ [] := hne2 (List.cons_ne_nil c2 rest)
    have hB : renderNodeB cfg (some par) idx (some c2.kind) c =
        .ok (.emit (blockSeparator c.kind (idx ≠ 0) c.blankPrev) ::
          cevs) := by
      rw [renderNodeB, hokc]
      rfl
    have hokall : renderChildrenB cfg par idx (c :: c2 :: rest) =
        .ok ((.emit (blockSeparator c.kind (idx ≠ 0) c.blankPrev) ::
          cevs) ++ evs2) := by
      rw [renderChildrenB, hB, hok2]
      rfl
    obtain ⟨hsl, hst, hs2, hs3⟩ :=
      sep_facts (blockSeparator_cases c.kind (idx ≠ 0) c.blankPrev)
    have hLB : logicalBytes ((REvent.emit (blockSeparator c.kind
        (idx ≠ 0) c.blankPrev) :: cevs) ++ evs2) =
        (blockSeparator c.kind (idx ≠ 0) c.blankPrev ++
          logicalBytes cevs) ++ logicalBytes evs2 := by
      rw [logicalBytes_append]
      simp [logicalBytes]
    have hA1tr : trailNL (blockSeparator c.kind (idx ≠ 0) c.blankPrev ++
        logicalBytes cevs) = 0 := trailNL_append_right_nz hcne hctr
    have hA13 : noTriple3 (blockSeparator c.kind (idx ≠ 0) c.blankPrev ++
        logicalBytes cevs) := by
      refine noTriple3_append hs3 hc3 ?_
      rw [hcld]
      omega
    have hA1ld : leadNL (blockSeparator c.kind (idx ≠ 0) c.blankPrev ++
        logicalBytes cevs) =
        (blockSeparator c.kind (idx ≠ 0) c.blankPrev).length := by
      rw [leadNL_append_full hsl, hcld]
      omega
    have hA1len : (blockSeparator c.kind (idx ≠ 0) c.blankPrev).length <
        (blockSeparator c.kind (idx ≠ 0) c.blankPrev ++
          logicalBytes cevs).length := by
      rw [List.length_append]
      have : 0 < (logicalBytes cevs).length := List.length_pos.2 hcne
      omega
    refine ⟨_, hokall, ?_, ?_, ?_, ?_, ?_⟩
    all_goals rw [hLB]
    · exact trailNL_append_right_nz hL2ne htr2
    · refine noTriple3_append hA13 h32 ?_
      rw [hA1tr]
      omega
    · rw [leadNL_append_of_ne (by omega), hA1ld]
      omega
    · intro h0
      subst h0
      rw [leadNL_append_of_ne (by omega), hA1ld]
      rw [show blockSeparator c.kind ((0 : Nat) ≠ 0) c.blankPrev = []
        from blockSeparator_hasPrev_false c.kind c.blankPrev]
      rfl
    · intro _
      simp [hL2ne]
termination_by sizeOf l
decreasing_by
  all_goals simp_wf
  all_goals first
    | exact Node.sizeOf_children_lt _
    | exact Node.sizeOf_children_succ_lt _
    | omega

theorem renderChildrenItems_stream (cfg : RenderConfig) (p : Node)
    (idx : Nat) (l : List Node) :
    WfCfg cfg → p.kind = NodeKind.list → p.data.marker ≠ 10 →
    (∀ c ∈ l, WfItem c) →
    ∃ evs, renderChildrenB cfg p idx l = .ok evs ∧
      trailNL (logicalBytes evs) = 0 ∧ noTriple3 (logicalBytes evs) ∧
      leadNL (logicalBytes evs) ≤ 1 ∧
      (idx = 0 → leadNL (logicalBytes evs) = 0) ∧
      (l ≠ [] → logicalBytes evs ≠ []) := by
  match l with
  | [] =>
    intro hcfg hp hmk hl
    refine ⟨[], by rw [renderChildrenB]; rfl, ?_, ?_, ?_, ?_, ?_⟩
    · exact trailNL_nil
    · intro hinf
      rw [logicalBytes] at hinf
      exact absurd hinf.length_le (by decide)
    · rw [logicalBytes, leadNL_nil]
      omega
    · intro _
      rw [logicalBytes, leadNL_nil]
    · intro h
      exact absurd rfl h
  | [c] =>
    intro hcfg hp hmk hl
    have hwc := hl c (List.mem_cons_self c [])
    have hkc : c.kind = NodeKind.listItem := WfItem_kind hwc
    obtain ⟨cevs, hokc, hcne, hcld, hc3, hctr, hctr0⟩ :=
      renderItemCore_stream cfg p idx Option.none c hcfg hp hmk hwc
    have hctrz : trailNL (logicalBytes cevs) = 0 := hctr0 (by simp)
    have hS : blockSeparator c.kind (idx ≠ 0) c.blankPrev = [] ∨
        blockSeparator c.kind (idx ≠ 0) c.blankPrev = [10] := by
      rw [hkc]
      exact blockSeparator_listItem_cases _ _
    obtain ⟨hsl, hst, hs2, hs3⟩ := sep_facts
      (hS.elim (fun h => Or.inl h) (fun h => Or.inr (Or.inl h)))
    have hs1 : (blockSeparator c.kind (idx ≠ 0) c.blankPrev).length ≤ 1 := by
      rcases hS with h | h <;> rw [h] <;> decide
    have hB : renderNodeB cfg (some p) idx Option.none c =
        .ok (.emit (blockSeparator c.kind (idx ≠ 0) c.blankPrev) ::
          cevs) := by
      rw [renderNodeB, hokc]
      rfl
    refine ⟨_, by rw [renderChildrenB]; exact hB, ?_, ?_, ?_, ?_, ?_⟩
    all_goals
      rw [show logicalBytes (REvent.emit (blockSeparator c.kind
        (idx ≠ 0) c.blankPrev) :: cevs) =
        blockSeparator c.kind (idx ≠ 0) c.blankPrev ++
          logicalBytes cevs from by simp [logicalBytes]]
    · exact trailNL_append_right_nz hcne hctrz
    · refine noTriple3_append hs3 hc3 ?_
      rw [hcld]
      omega
    · rw [leadNL_append_full hsl, hcld]
      omega
    · intro h0
      subst h0
      rw [show blockSeparator c.kind ((0 : Nat) ≠ 0) c.blankPrev = []
        from blockSeparator_hasPrev_false c.kind c.blankPrev]
      rw [List.nil_append]
      exact hcld
    · intro _
      simp [hcne]
  | c :: c2 :: rest =>
    intro hcfg hp hmk hl
    have hwc := hl c (List.mem_cons_self c (c2 :: rest))
    have hkc : c.kind = NodeKind.listItem := WfItem_kind hwc
    have hk2 : c2.kind = NodeKind.listItem :=
      WfItem_kind (hl c2 (by simp))
    obtain ⟨cevs, hokc, hcne, hcld, hc3, hctr, -⟩ :=
      renderItemCore_stream cfg p idx (some c2.kind) c hcfg hp hmk hwc
    obtain ⟨evs2, hok2, htr2, h32, hld2, -, hne2⟩ :=
      renderChildrenItems_stream cfg p (idx + 1) (c2 :: rest) hcfg hp hmk
        (fun x hx => hl x (List.mem_cons_of_mem c hx))
    have hL2ne : logicalBytes evs2 ≠ [] := hne2 (List.cons_ne_nil c2 rest)
    have hS : blockSeparator c.kind (idx ≠ 0) c.blankPrev = [] ∨
        blockSeparator c.kind (idx ≠ 0) c.blankPrev = [10] := by
      rw [hkc]
      exact blockSeparator_listItem_cases _ _
    obtain ⟨hsl, hst, hs2, hs3⟩ := sep_facts
      (hS.elim (fun h => Or.inl h) (fun h => Or.inr (Or.inl h)))
    have hs1 : (blockSeparator c.kind (idx ≠ 0) c.blankPrev).length ≤ 1 := by
      rcases hS with h | h <;> rw [h] <;> decide
    have hB : renderNodeB cfg (some p) idx (some c2.kind) c =
        .ok (.emit (blockSeparator c.kind (idx ≠ 0) c.blankPrev) ::
          cevs) := by
      rw [renderNodeB, hokc]
      rfl
    have hokall : renderChildrenB cfg p idx (c :: c2 :: rest) =
        .ok ((.emit (blockSeparator c.kind (idx ≠ 0) c.blankPrev) ::
          cevs) ++ evs2) := by
      rw [renderChildrenB, hB, hok2]
      rfl
    have hLB : logicalBytes ((REvent.emit (blockSeparator c.kind
        (idx ≠ 0) c.blankPrev) :: cevs) ++ evs2) =
        (blockSeparator c.kind (idx ≠ 0) c.blankPrev ++
          logicalBytes cevs) ++ logicalBytes evs2 := by
      rw [logicalBytes_append]
      simp [logicalBytes]
    have hA1tr : trailNL (blockSeparator c.kind (idx ≠ 0) c.blankPrev ++
        logicalBytes cevs) ≤ 1 := by
      rw [trailNL_append_keep hcne hcld]
      exact hctr
    have hA13 : noTriple3 (blockSeparator c.kind (idx ≠ 0) c.blankPrev ++
        logicalBytes cevs) := by
      refine noTriple3_append hs3 hc3 ?_
      rw [hcld]
      omega
    have hA1ld : leadNL (blockSeparator c.kind (idx ≠ 0) c.blankPrev ++
        logicalBytes cevs) =
        (blockSeparator c.kind (idx ≠ 0) c.blankPrev).length := by
      rw [leadNL_append_full hsl, hcld]
      omega
    have hA1len : (blockSeparator c.kind (idx ≠ 0) c.blankPrev).length <
        (blockSeparator c.kind (idx ≠ 0) c.blankPrev ++
          logicalBytes cevs).length := by
      rw [List.length_append]
      have : 0 < (logicalBytes cevs).length := List.length_pos.2 hcne
      omega
    refine ⟨_, hokall, ?_, ?_, ?_, ?_, ?_⟩
    all_goals rw [hLB]
    · exact trailNL_append_right_nz hL2ne htr2
    · refine noTriple3_append hA13 h32 ?_
      omega
    · rw [leadNL_append_of_ne (by omega), hA1ld]
      omega
    · intro h0
      subst h0
      rw [leadNL_append_of_ne (by omega), hA1ld]
      rw [show blockSeparator c.kind ((0 : Nat) ≠ 0) c.blankPrev = []
        from blockSeparator_hasPrev_false c.kind c.blankPrev]
      rfl
    · intro _
      simp [hL2ne]
termination_by sizeOf l
decreasing_by
  all_goals simp_wf
  all_goals first
    | exact Node.sizeOf_children_lt _
    | exact Node.sizeOf_children_succ_lt _
    | omega

end

theorem noTriple3_nil : noTriple3 [] := by
  intro hinf
  exact absurd hinf.length_le (by decide)

/-- C8 (amended): for a well-formed configuration (positive display
widths on non-empty input, formatters whose newline-terminated output
never carries a blank-line run) and a well-formed document (non-empty,
block shapes as the parser produces them, code-block and raw-HTML
literals free of blank-line runs), `Render` succeeds, its output
contains no run of three or more consecutive newlines, and it ends with
exactly one trailing newline: the last byte is a newline and the output
does not end in two. -/
theorem render_no_triple_newline_amended (cfg : RenderConfig) (doc : Node)
    (hcfg : WfCfg cfg) (hdoc : WfDoc doc) :
    ∃ out, Render cfg doc = .ok out ∧ ¬ ([10, 10, 10] <:+: out) ∧
      out.getLast? = some 10 ∧ ¬ ([10, 10] <:+ out) := by
  obtain ⟨hk, hne, hwf⟩ := hdoc
  rcases doc with ⟨k, d, bp, ch⟩
  simp only [Node.kind] at hk
  subst hk
  simp only [Node.children] at hne hwf
  obtain ⟨evs, hok, htr, h3, hld, hld0, hneL⟩ :=
    renderChildrenBlocks_stream cfg (.mk .document d bp ch) 0 ch hcfg hwf
  have hLne : logicalBytes evs ≠ [] := hneL hne
  have hL0 : leadNL (logicalBytes evs) = 0 := hld0 rfl
  have hpos : 0 < (logicalBytes evs).length := List.length_pos.2 hLne
  rw [Render, renderNodeB, renderNodeCore]
  simp only [Node.kind, Node.children, Node.blankPrev]
  rw [hok]
  have hpb : (Except.ok evs : Except RenderErr (List REvent)) =
      pure evs := rfl
  rw [hpb]
  simp only [pure_bind, Except.map]
  refine ⟨_, rfl, ?_⟩
  rw [show blockSeparator NodeKind.document (decide ((0 : Nat) ≠ 0)) bp
    = [] from rfl]
  simp only [initialW]
  set E := REvent.emit ([] : List Nat) :: (evs ++ [REvent.emit [10]])
    with hE
  have hLeq : logicalBytes E = logicalBytes evs ++ [10] := by
    rw [hE]
    rw [show logicalBytes (REvent.emit ([] : List Nat) ::
      (evs ++ [REvent.emit [10]])) =
      [] ++ logicalBytes (evs ++ [REvent.emit [10]]) from rfl]
    rw [List.nil_append, logicalBytes_append]
    simp [logicalBytes]
  have hB1 : trailNL (logicalBytes evs ++ [10]) = 1 := by
    rw [trailNL_append_ten, htr]
  have hT : noTriple3 ([10] ++ (logicalBytes evs ++ [10])) := by
    have hA : noTriple3 ([10] ++ logicalBytes evs) := by
      refine noTriple3_append ?_ h3 ?_
      · intro hinf
        exact absurd hinf.length_le (by decide)
      · have ht10 : trailNL [10] = 1 := rfl
        rw [ht10, hL0]
        omega
    have hAtr : trailNL ([10] ++ logicalBytes evs) = 0 :=
      trailNL_append_right_nz hLne htr
    have h2 := noTriple3_append_single10 hA (by omega)
    rwa [List.append_assoc] at h2
  have hwinv0 : WinvL ⟨[], true, []⟩ [10] := by
    refine ⟨noTriple3_nil, ?_, ?_, Or.inl rfl, ?_⟩
    · have h1 : trailNL [10] = 1 := rfl
      rw [trailNL_nil, h1]
      omega
    · constructor
      · intro _
        rfl
      · intro _
        rfl
    · simp
  have hinv := runEvents_WinvL E ⟨[], true, []⟩ [10] hwinv0
    (by rw [hLeq]; exact hT)
  rw [hLeq] at hinv
  obtain ⟨hi1, hi2, hi3, hi4, hi5⟩ := hinv
  have hR : trailNL ([10] ++ (logicalBytes evs ++ [10])) = 1 := by
    rw [trailNL_append]
    have hlen : (logicalBytes evs ++ [10]).length =
        (logicalBytes evs).length + 1 := by simp
    rw [if_neg (by rw [hB1, hlen]; omega)]
    exact hB1
  have htrout : trailNL (runEvents ⟨[], true, []⟩ E).outBytes ≤ 1 := by
    rw [hR] at hi2
    exact hi2
  have houtne : (runEvents ⟨[], true, []⟩ E).outBytes ≠ [] := by
    intro hx
    rw [hx] at hi5
    have hL2 : (([10] : List Nat) ++ (logicalBytes evs ++ [10])).length =
        (logicalBytes evs).length + 2 := by simp
    rw [hL2] at hi5
    simp only [List.length_nil] at hi5
    omega
  have hlast : (runEvents ⟨[], true, []⟩ E).outBytes.getLast? =
      some 10 := by
    rcases hi4 with h | h
    · exact absurd h houtne
    · rw [h]
      rw [show ([10] : List Nat) ++ (logicalBytes evs ++ [10]) =
        ([10] ++ logicalBytes evs) ++ [10] from by
          simp [List.append_assoc]]
      exact getLast?_snoc _ _
  have htr1 : 1 ≤ trailNL (runEvents ⟨[], true, []⟩ E).outBytes :=
    getLast?_eq_ten_iff_trailNL.1 hlast
  refine ⟨hi1, hlast, ?_⟩
  intro hsuf
  have := suffix_ten_ten_iff_trailNL.1 hsuf
  omega

/-- Witness: the amended C8 theorem applied to the plain configuration
and the sample document, with both well-formedness hypotheses
discharged concretely. -/
theorem render_no_triple_newline_amended_witness :
    WfCfg plainConfig ∧ WfDoc wfDocExample ∧
    ∃ out, Render plainConfig wfDocExample = .ok out ∧
      ¬ ([10, 10, 10] <:+: out) ∧ out.getLast? = some 10 ∧
      ¬ ([10, 10] <:+ out) := by
  have hWcfg : WfCfg plainConfig := by
    constructor
    · intro s hs
      exact List.length_pos.2 hs
    · intro lang f h
      rw [show lookupFormatter plainConfig.formatters lang = Option.none
        from rfl] at h
      cases h
  have hWdoc : WfDoc wfDocExample := by
    refine ⟨rfl, by simp [wfDocExample, Node.children], ?_⟩
    intro c hc
    simp [wfDocExample, Node.children] at hc
    subst hc
    refine WfBlock.paragraph _ _ _ (by simp) ?_ ?_
    · intro x hx
      simp at hx
      subst hx
      exact ⟨rfl, rfl, by decide⟩
    · exact ⟨rfl, rfl⟩
  exact ⟨hWcfg, hWdoc,
    render_no_triple_newline_amended plainConfig wfDocExample hWcfg hWdoc⟩
end Markdownfmt
